import Mathlib

/-!
# WebVTT reader of `thiagopnts/caps`: a shallow embedding

The development follows `src/webvtt/reader.go`.  Go strings are modelled as lists of
characters, Go `error` values as a small inductive type that records the wrapping done by
`fmt.Errorf("...%w", err)`, and the two run-time failures Go can raise in this file (slice
index out of range, nil pointer dereference) as a third outcome next to a value and an error.
-/

namespace Caps

/-! ## Strings -/

/-- Go strings, as the sequence of their characters. -/
abbrev Str := List Char

/-- The Go function `strings.HasPrefix(s, p)`. -/
def startsWith : Str → Str → Bool
  | _, [] => true
  | [], _ :: _ => false
  | c :: s, d :: p => c == d && startsWith s p

/-- The Go function `strings.Contains(s, sub)`: `sub` starts at some position of `s`. -/
def stringsContains : Str → Str → Bool
  | [], sub => startsWith [] sub
  | c :: s, sub => startsWith (c :: s) sub || stringsContains s sub

/-- The Go predicate `unicode.IsSpace`, the white space removed by `strings.TrimSpace`. -/
def isSpace (c : Char) : Bool :=
  c == '\t' || c == '\n' || c == '\x0b' || c == '\x0c' || c == '\r' || c == ' ' ||
  c.toNat == 0x85 || c.toNat == 0xA0 || c.toNat == 0x1680 ||
  (0x2000 ≤ c.toNat && c.toNat ≤ 0x200A) ||
  c.toNat == 0x2028 || c.toNat == 0x2029 || c.toNat == 0x202F || c.toNat == 0x205F ||
  c.toNat == 0x3000

/-- The Go function `strings.TrimSpace`: leading and trailing white space removed. -/
def trimSpace (s : Str) : Str :=
  ((s.dropWhile isSpace).reverse.dropWhile isSpace).reverse

/-- The Go function `strings.ReplaceAll(s, ":", "")`, as used by `parseTimestamp`. -/
def removeColons (s : Str) : Str :=
  s.filter (fun c => c != ':')

/-! ## Regular expressions

Go's `regexp` package returns the leftmost match and, among the matches starting there, the
one a backtracking search finds first.  `matchRe re s` lists, in that order of preference,
what remains of `s` after each way of matching `re` at the start of `s`; its head is the
match Go reports at that position. -/

/-- The regular-expression constructs used by the four patterns of the reader. -/
inductive Re where
  | chr (c : Char)
  | any
  | cls (p : Char → Bool)
  | seq (a b : Re)
  | alt (a b : Re)
  | opt (a : Re)
  | star (a : Re)
  | lazyStar (a : Re)

/-- Greedy repetition: one more round of `m` is preferred to stopping. The fuel is the
length of the input, which bounds the rounds as every round of the patterns below consumes a
character. -/
def starLoop (m : Str → List Str) : Nat → Str → List Str
  | 0, s => [s]
  | n + 1, s => (m s).flatMap (starLoop m n) ++ [s]

/-- Lazy repetition: stopping is preferred to one more round of `m`. -/
def lazyStarLoop (m : Str → List Str) : Nat → Str → List Str
  | 0, s => [s]
  | n + 1, s => s :: (m s).flatMap (lazyStarLoop m n)

/-- The remainders of `s` after each match of the expression at the start of `s`, the
preferred one first.  The expression `any` is Go's `.`, which does not match a newline. -/
def matchRe : Re → Str → List Str
  | .chr c, s =>
    match s with
    | d :: t => if d = c then [t] else []
    | [] => []
  | .any, s =>
    match s with
    | d :: t => if d = '\n' then [] else [t]
    | [] => []
  | .cls p, s =>
    match s with
    | d :: t => if p d then [t] else []
    | [] => []
  | .seq a b, s => (matchRe a s).flatMap (matchRe b)
  | .alt a b, s => matchRe a s ++ matchRe b s
  | .opt a, s => matchRe a s ++ [s]
  | .star a, s => starLoop (matchRe a) s.length s
  | .lazyStar a, s => lazyStarLoop (matchRe a) s.length s

/-- A literal string as an expression. -/
def Re.lit : Str → Re
  | [] => .opt (.cls (fun _ => false))
  | [c] => .chr c
  | c :: d :: s => .seq (.chr c) (Re.lit (d :: s))

/-- The match Go reports at the start of `s`: the matched text and what follows it. -/
def matchPrefix (re : Re) (s : Str) : Option (Str × Str) :=
  match matchRe re s with
  | rest :: _ => some (s.take (s.length - rest.length), rest)
  | [] => none

/-- The Go call `re.FindAllString(s, -1)` for a pattern that begins with `^`: the list of the
successive matches of the whole expression (not of its groups).  The anchor only holds at
offset 0 and neither anchored pattern matches the empty string, so the search that resumes
after a first match finds nothing: the list has one element, the text of the match, or
none. -/
def findAllStringAnchored (re : Re) (s : Str) : List Str :=
  match matchPrefix re s with
  | some (m, _) => [m]
  | none => []

/-- The Go call `re.ReplaceAllString(s, repl)` for a replacement without `$`: every match,
found from left to right without overlap, is replaced by `repl` taken literally.  The fuel
bounds the number of steps; `replaceAllString` gives one more than the length. -/
def replaceAllLoop (re : Re) (repl : Str) : Nat → Str → Str
  | 0, s => s
  | _ + 1, [] => []
  | n + 1, c :: t =>
    match matchRe re (c :: t) with
    | rest :: _ => repl ++ replaceAllLoop re repl n rest
    | [] => c :: replaceAllLoop re repl n t

/-- See `replaceAllLoop`. -/
def replaceAllString (re : Re) (repl : Str) (s : Str) : Str :=
  replaceAllLoop re repl (s.length + 1) s

/-- The class `\d`. -/
def isDigit (c : Char) : Bool := '0' ≤ c && c ≤ '9'

/-- The body of `timingPattern`, the expression `^(.+?) --> (.+)` without its anchor. -/
def timingPattern : Re :=
  .seq (.seq .any (.lazyStar .any))
    (.seq (Re.lit " --> ".toList) (.seq .any (.star .any)))

/-- The body of `timestampPattern`, the expression `^(\d+):(\d{2})(:\d{2})?\.(\d{3})`
without its anchor. -/
def timestampPattern : Re :=
  .seq (.seq (.cls isDigit) (.star (.cls isDigit)))
    (.seq (.chr ':')
      (.seq (.seq (.cls isDigit) (.cls isDigit))
        (.seq (.opt (.seq (.chr ':') (.seq (.cls isDigit) (.cls isDigit))))
          (.seq (.chr '.')
            (.seq (.cls isDigit) (.seq (.cls isDigit) (.cls isDigit)))))))

/-- The expression `voiceSpanPattern`.  The source writes it in a raw string,
`<v(\\.\\w+)* ([^>]*)>`, so each `\\` is the expression for one backslash character: the
group is a backslash, any character, a backslash and one or more letters `w`. -/
def voiceSpanPattern : Re :=
  .seq (Re.lit "<v".toList)
    (.seq (.star (.seq (.chr '\\') (.seq .any (.seq (.chr '\\')
        (.seq (.chr 'w') (.star (.chr 'w')))))))
      (.seq (.chr ' ') (.seq (.star (.cls (fun c => c != '>'))) (.chr '>'))))

/-- The expression `otherSpanPattern`, `</?([cibuv]|ruby|rt|lang).*?>`. -/
def otherSpanPattern : Re :=
  .seq (.chr '<')
    (.seq (.opt (.chr '/'))
      (.seq (.alt (.cls (fun c => c == 'c' || c == 'i' || c == 'b' || c == 'u' || c == 'v'))
              (.alt (Re.lit "ruby".toList) (.alt (Re.lit "rt".toList) (Re.lit "lang".toList))))
        (.seq (.lazyStar .any) (.chr '>'))))

/-- The replacement text of `removeStyles`: the Go literal `"\\2: "` is a backslash, the
digit 2, a colon and a space.  Go expands only `$` in a replacement, so these four
characters are inserted as they are. -/
def voiceReplacement : Str := ['\\', '2', ':', ' ']

/-- The method `Reader.removeStyles`. -/
def removeStyles (line : Str) : Str :=
  let voiceRewritten := replaceAllString voiceSpanPattern voiceReplacement line
  replaceAllString otherSpanPattern [] voiceRewritten

/-! ## Outcomes, timestamps and the caption model -/

/-- The messages of the `error` values built by the reader; `timingLine` and
`parsingWebvtt` are the two wrappers made with `%w`. -/
inductive Err where
  /-- The message `invalid timing format`. -/
  | invalidTimingFormat
  /-- The message `end timestamp is not greater than start timestamp`. -/
  | endNotGreater
  /-- The message `start timestamp is not greater to start timestamp of previous cue`. -/
  | startNotGreater
  /-- The message `empty caption file`. -/
  | emptyCaptionFile
  /-- The error of `strconv.ParseFloat` on the given text. -/
  | parseFloat (s : Str)
  /-- The wrapper `error parsing timing line %d: %w`. -/
  | timingLine (i : Nat) (e : Err)
  /-- The wrapper `error parsing webvtt: %w`. -/
  | parsingWebvtt (e : Err)
  deriving DecidableEq, Repr

/-- The run-time failures that stop a Go program instead of returning. -/
inductive Fault where
  /-- The failure `index out of range [index] with length length`. -/
  | indexOutOfRange (index length : Nat)
  /-- The failure `invalid memory address or nil pointer dereference`. -/
  | nilDereference
  deriving DecidableEq, Repr

/-- The outcome of a Go function of type `(T, error)`: a value with a nil error, a non-nil
error (the value is then nil or zero), or a run-time failure. -/
inductive Run (α : Type) where
  | ok (a : α)
  | error (e : Err)
  | fault (f : Fault)
  deriving DecidableEq, Repr

/-- Sequencing of two steps: an error or a failure of the first one ends the function. -/
def Run.bind {α β : Type} (x : Run α) (f : α → Run β) : Run β :=
  match x with
  | .ok a => f a
  | .error e => .error e
  | .fault f => .fault f

/-- The slice access `xs[i]`, which fails when `i` is not below the length. -/
def index {α : Type} (xs : List α) (i : Nat) : Run α :=
  match xs.get? i with
  | some x => .ok x
  | none => .fault (.indexOutOfRange i xs.length)

/-- The values of Go's `float64` as far as comparison sees them: not-a-number, the two
infinities, and the finite values as rationals (both zeros are the rational 0). -/
inductive F64 where
  | nan
  | negInf
  | posInf
  | num (q : ℚ)
  deriving DecidableEq

/-- The comparison `a < b` of `float64`: false as soon as one side is not a number. -/
def F64.lt : F64 → F64 → Bool
  | .num a, .num b => decide (a < b)
  | .negInf, .num _ => true
  | .negInf, .posInf => true
  | .num _, .posInf => true
  | _, _ => false

/-- The comparison `a > b` of `float64`. -/
def F64.gt (a b : F64) : Bool := F64.lt b a

/-- The comparison `a <= b` of `float64`: false as soon as one side is not a number. -/
def F64.le : F64 → F64 → Bool
  | .nan, _ => false
  | _, .nan => false
  | a, b => !(F64.lt b a)

/-- What the reader takes from outside `src/webvtt`: the line splitter `caps.SplitLines`,
the parser `strconv.ParseFloat` (a value, or no value when it returns an error), and the
rounded `float64` sum and product. -/
structure Env where
  splitLines : Str → List Str
  parseFloat : Str → Option F64
  add : F64 → F64 → F64
  mul : F64 → F64 → F64

/-- An inline style overlay, the payload of a `Style`-kind node. -/
structure StyleDescriptor where
  cls : Str
  textAlign : Str
  fontFamily : Str
  fontSize : Str
  color : Str
  italics : Bool
  bold : Bool
  underline : Bool
  deriving DecidableEq

/-- The content nodes of a caption. -/
inductive Node where
  | text (content : Str)
  | lineBreak
  | style (s : StyleDescriptor)
  deriving DecidableEq

/-- The type `caps.Caption`, with the fields the reader sets. -/
structure Caption where
  Start : F64
  End : F64
  Nodes : List Node
  deriving DecidableEq

/-- Modelled from the spec: `caps.Caption.IsEmpty` is not under `src/`; a caption is empty
when it has no content node ("finalizes the pending caption (if non-empty)", "if the
caption already has content"). -/
def Caption.IsEmpty (c : Caption) : Bool := c.Nodes.isEmpty

/-- The constructor `caps.NewLineBreak()`. -/
def NewLineBreak : Node := .lineBreak

/-- The constructor `caps.NewCaptionText(text)`. -/
def NewCaptionText (text : Str) : Node := .text text

/-- Modelled from the spec: `caps.CaptionSet` is not under `src/`; it maps a language tag
to an ordered sequence of captions, with unique keys. -/
abbrev CaptionSet := List (Str × List Caption)

/-- Modelled from the spec: `caps.NewCaptionSet` is not under `src/`; a fresh set has no
language. -/
def NewCaptionSet : CaptionSet := []

/-- Modelled from the spec: `caps.DefaultLang` is not under `src/`; a language tag such as
`en-US`. -/
def DefaultLang : Str := "en-US".toList

/-- Modelled from the spec: `CaptionSet.SetCaptions` is not under `src/`; it "overwrites
any existing sequence for that language". -/
def CaptionSet.SetCaptions (set : CaptionSet) (lang : Str) (seq : List Caption) :
    CaptionSet :=
  (lang, seq) :: set.filter (fun e => e.1 != lang)

/-- Modelled from the spec: `CaptionSet.GetCaptions` is not under `src/`; it "returns an
empty sequence (not an error) for an unknown language". -/
def CaptionSet.GetCaptions (set : CaptionSet) (lang : Str) : List Caption :=
  match set.find? (fun e => e.1 == lang) with
  | some e => e.2
  | none => []

/-- Modelled from the spec: `CaptionSet.IsEmpty` is not under `src/`; it "is true iff
every language's sequence is empty". -/
def CaptionSet.IsEmpty (set : CaptionSet) : Bool :=
  set.all (fun e => e.2.isEmpty)

/-! ## The reader -/

/-- The function `microseconds`: the four fields are parsed in turn, the first failure is
returned, and the value is `(hh*3600+mm*60+ss)*1000000 + ff*1000` in `float64`
arithmetic. -/
def microseconds (env : Env) (h m s f : Str) : Run F64 :=
  match env.parseFloat h with
  | none => .error (.parseFloat h)
  | some hh =>
    match env.parseFloat m with
    | none => .error (.parseFloat m)
    | some mm =>
      match env.parseFloat s with
      | none => .error (.parseFloat s)
      | some ss =>
        match env.parseFloat f with
        | none => .error (.parseFloat f)
        | some ff =>
          .ok (env.add
            (env.mul (env.add (env.add (env.mul hh (.num 3600)) (env.mul mm (.num 60))) ss)
              (.num 1000000))
            (env.mul ff (.num 1000)))

/-- The type `Reader`. -/
structure Reader where
  ignoreTimingErrors : Bool
  deriving DecidableEq

/-- The constructor `NewReader`. -/
def NewReader (ignoreTimingErrors : Bool) : Reader := ⟨ignoreTimingErrors⟩

/-- The method `Reader.validateTimings`; `none` is the nil error. -/
def validateTimings (caption : Caption) (lastStartTime : F64) : Option Err :=
  if F64.gt caption.Start caption.End then
    some .endNotGreater
  else if F64.lt caption.Start lastStartTime then
    some .startNotGreater
  else
    none

/-- The method `Reader.parseTimestamp`. -/
def parseTimestamp (env : Env) (input : Str) : Run F64 :=
  let found := findAllStringAnchored timestampPattern input
  if found.length < 4 then
    .ok (.num 0)
  else
    (index found 2).bind fun m2 =>
      if m2 ≠ [] then
        (index found 0).bind fun m0 =>
        (index found 1).bind fun m1 =>
        (index found 3).bind fun m3 =>
          microseconds env m0 m1 (removeColons m2) m3
      else
        (index found 0).bind fun m0 =>
        (index found 1).bind fun m1 =>
        (index found 3).bind fun m3 =>
          microseconds env ['0'] m0 m1 m3

/-- The method `Reader.parseTimingLine`.  The value of `validateTimings` is computed and
dropped, as in the source, where the call is a statement of its own. -/
def parseTimingLine (env : Env) (r : Reader) (line : Str) (lastStartTime : F64) :
    Run Caption :=
  let found := findAllStringAnchored timingPattern line
  if found.length = 0 then
    .error .invalidTimingFormat
  else
    (index found 1).bind fun m1 =>
    (parseTimestamp env m1).bind fun startTime =>
    (index found 2).bind fun m2 =>
    (parseTimestamp env m2).bind fun endTime =>
      let caption : Caption := ⟨startTime, endTime, []⟩
      let _ := if !r.ignoreTimingErrors then validateTimings caption lastStartTime else none
      .ok caption

/-- The variables of the loop of `Reader.parse`. -/
structure ParseState where
  captions : List Caption
  foundTiming : Bool
  caption : Option Caption
  deriving DecidableEq

/-- The start of `Reader.parse`: no caption, no timing line seen, a nil pending caption. -/
def ParseState.init : ParseState := ⟨[], false, none⟩

/-- The constant `webvttTiming`. -/
def webvttTiming : Str := "-->".toList

/-- The value of `lastStartTime` computed at a timing line. -/
def lastStart (captions : List Caption) : F64 :=
  match captions.getLast? with
  | some c => c.Start
  | none => .num 0

/-- One round of the loop of `Reader.parse`, on line number `i`, for a given parser of
timing lines `timing` (in the reader, `parseTimingLine`). -/
def parseStep (timing : Str → F64 → Run Caption) (i : Nat) (rawLine : Str)
    (st : ParseState) : Run ParseState :=
  let line := trimSpace rawLine
  if stringsContains line webvttTiming then
    match timing line (lastStart st.captions) with
    | .ok c => .ok ⟨st.captions, true, some c⟩
    | .error e => .error (.timingLine i e)
    | .fault f => .fault f
  else if line = [] then
    if st.foundTiming then
      match st.caption with
      | some c =>
        if !c.IsEmpty then .ok ⟨st.captions ++ [c], false, none⟩
        else .ok ⟨st.captions, false, none⟩
      | none => .ok ⟨st.captions, false, none⟩
    else
      .ok st
  else
    if st.foundTiming then
      match st.caption with
      | some c =>
        let c1 : Caption :=
          if !c.IsEmpty then { c with Nodes := c.Nodes ++ [NewLineBreak] } else c
        .ok ⟨st.captions, true,
          some { c1 with Nodes := c1.Nodes ++ [NewCaptionText (removeStyles line)] }⟩
      | none => .fault .nilDereference
    else
      .ok st

/-- The loop of `Reader.parse` over the lines, numbered from `i`. -/
def parseLoop (timing : Str → F64 → Run Caption) : Nat → List Str → ParseState →
    Run ParseState
  | _, [], st => .ok st
  | i, l :: ls, st =>
    match parseStep timing i l st with
    | .ok st1 => parseLoop timing (i + 1) ls st1
    | .error e => .error e
    | .fault f => .fault f

/-- The end of `Reader.parse`: a pending caption with content joins the captions. -/
def finish (st : ParseState) : List Caption :=
  match st.caption with
  | some c => if !c.IsEmpty then st.captions ++ [c] else st.captions
  | none => st.captions

/-- The body of `Reader.parse` for a given parser of timing lines. -/
def parseWith (timing : Str → F64 → Run Caption) (lines : List Str) : Run (List Caption) :=
  match parseLoop timing 0 lines ParseState.init with
  | .ok st => .ok (finish st)
  | .error e => .error e
  | .fault f => .fault f

/-- The method `Reader.parse`. -/
def parse (env : Env) (r : Reader) (lines : List Str) : Run (List Caption) :=
  parseWith (parseTimingLine env r) lines

/-- The method `Reader.ReadString`. -/
def ReadString (env : Env) (r : Reader) (content : Str) : Run CaptionSet :=
  let captionSet := NewCaptionSet
  match parse env r (env.splitLines content) with
  | .fault f => .fault f
  | .error e => .error (.parsingWebvtt e)
  | .ok captions =>
    let captionSet := captionSet.SetCaptions DefaultLang captions
    if captionSet.IsEmpty then .error .emptyCaptionFile else .ok captionSet

/-- The method `Reader.Read`: the bytes are read as a string. -/
def Read (env : Env) (r : Reader) (content : Str) : Run CaptionSet :=
  ReadString env r content

/-- The method `Reader.DetectString`. -/
def DetectString (content : Str) : Bool :=
  stringsContains content "WEBVTT".toList

/-- The method `Reader.Detect`: the bytes are read as a string. -/
def Detect (content : Str) : Bool :=
  DetectString content

/-! ## Samples -/

/-- A sample environment: lines end at a newline, a field of decimal digits parses to its
value, and the arithmetic is exact on finite values. -/
def lineEnv : Env where
  splitLines := fun s => (s.splitOn '\n')
  parseFloat := fun s =>
    if s ≠ [] ∧ s.all isDigit then
      some (.num (s.foldl (fun n c => 10 * n + (c.toNat - 48)) 0 : Nat))
    else none
  add := fun a b => match a, b with
    | .num x, .num y => .num (x + y)
    | _, _ => .nan
  mul := fun a b => match a, b with
    | .num x, .num y => .num (x * y)
    | _, _ => .nan

/-- The document of five lines: signature, blank, timing line, text, blank. -/
def sampleDocument : Str :=
  "WEBVTT\n\n00:00:01.000 --> 00:00:04.000\nHello\n".toList

/-! ## Vocabulary of the statements about markup -/

/-- The tag names `c`, `i`, `b`, `u`, `lang`, `ruby`, `rt`. -/
def tagNames : List Str :=
  [['c'], ['i'], ['b'], ['u'], ['l', 'a', 'n', 'g'], ['r', 'u', 'b', 'y'], ['r', 't']]

/-- The opening tag of a name. -/
def openTag (n : Str) : Str := '<' :: n ++ ['>']

/-- The closing tag of a name. -/
def closeTag (n : Str) : Str := '<' :: '/' :: n ++ ['>']

/-- A piece of a line of marked-up text: plain text, the opening or closing tag of a name
with its annotation (what stands between the name and `>`), or an opening voice tag `<v`
with its annotation. -/
inductive Piece where
  | text (t : Str)
  | tag (closing : Bool) (n : Str) (ann : Str)
  | voice (ann : Str)

/-- The characters of a piece. -/
def Piece.render : Piece → Str
  | .text t => t
  | .tag false n ann => '<' :: n ++ ann ++ ['>']
  | .tag true n ann => '<' :: '/' :: n ++ ann ++ ['>']
  | .voice ann => '<' :: 'v' :: ann ++ ['>']

/-- The text of a piece once its markup is removed. -/
def Piece.plain : Piece → Str
  | .text t => t
  | .tag _ _ _ => []
  | .voice _ => []

/-- An annotation has no `<`, no `>` and no newline. -/
def AnnotationOk (ann : Str) : Prop := '<' ∉ ann ∧ '>' ∉ ann ∧ '\n' ∉ ann

/-- Plain text has no `<`; a tag bears one of the names of `tagNames`, or is the closing
tag of `v`, and an annotation; the annotation of an opening voice tag does not begin with
a backslash. -/
def Piece.WellFormed : Piece → Prop
  | .text t => '<' ∉ t
  | .tag closing n ann => (n ∈ tagNames ∨ (closing = true ∧ n = ['v'])) ∧ AnnotationOk ann
  | .voice ann => AnnotationOk ann ∧ ∀ u, ann ≠ '\\' :: u

/-- The piece is an opening voice tag. -/
def Piece.isVoice : Piece → Bool
  | .voice _ => true
  | _ => false

/-- The piece after the replacement of the voice tags: an opening voice tag whose
annotation begins with a space has become the replacement text. -/
def Piece.afterVoice : Piece → Piece
  | .voice ann =>
    match ann with
    | d :: _ => if d = ' ' then .text voiceReplacement else .voice ann
    | [] => .voice ann
  | p => p

/-- The line made of the pieces. -/
def renderPieces (ps : List Piece) : Str := ps.flatMap Piece.render

/-- The text of the pieces. -/
def plainPieces (ps : List Piece) : Str := ps.flatMap Piece.plain

/-! ## Vocabulary of the statements about the loop -/

/-- A text line of a cue: after trimming it is not empty and has no `-->`. -/
def IsTextLine (raw : Str) : Prop :=
  trimSpace raw ≠ [] ∧ stringsContains (trimSpace raw) webvttTiming = false

/-- The text node the loop makes of a line. -/
def textNode (raw : Str) : Node := NewCaptionText (removeStyles (trimSpace raw))

/-- The link between the two loop variables: a timing line has been seen since the last
blank line exactly when there is a pending caption. -/
def ParseState.Linked (st : ParseState) : Prop :=
  st.foundTiming = st.caption.isSome

/-- The caption `c` carries the times that the timing-line parser gives for the line `raw`,
a line with `-->`. -/
def FromTimingLine (timing : Str → F64 → Run Caption) (c : Caption) (raw : Str) : Prop :=
  stringsContains (trimSpace raw) webvttTiming = true ∧
  ∃ last c0, timing (trimSpace raw) last = .ok c0 ∧ c.Start = c0.Start ∧ c.End = c0.End

/-- What the loop of `parse` keeps true of its state once it has read the lines `pre`: the
finished captions have nodes, they come in order from timing lines of `pre`, and the
pending caption comes from a later timing line of `pre`. -/
def ParseState.Traced (timing : Str → F64 → Run Caption) (pre : List Str)
    (st : ParseState) : Prop :=
  (∀ c ∈ st.captions, c.Nodes ≠ []) ∧
  ∃ ls, List.Forall₂ (FromTimingLine timing) st.captions ls ∧
    match st.caption with
    | none => ls.Sublist pre
    | some c => ∃ raw, FromTimingLine timing c raw ∧ (ls ++ [raw]).Sublist pre

/-- The comparison `a >= b` of `float64`. -/
def F64.ge (a b : F64) : Bool := F64.le b a

/-- The value is not a number. -/
def F64.isNaN : F64 → Bool
  | .nan => true
  | _ => false

/-! ## Parts of package `caps` that are not under `src/` -/

/-- Modelled from the spec: the error taxonomy of the readers that are not under `src/`. -/
inductive SpecError where
  | MalformedTimestamp
  | InvalidTimingOrder
  | StructuralError
  | EmptyDocument
  deriving DecidableEq, Repr

/-- Modelled from the spec: the timestamp codec is not under `src/`; its fields are
"digits-only", here a field of exactly `n` decimal digits at the head of the text. -/
def takeDigits : Nat → Str → Option (Nat × Str)
  | 0, s => some (0, s)
  | _ + 1, [] => none
  | n + 1, c :: s =>
    if isDigit c then
      match takeDigits n s with
      | some (v, rest) => some ((c.toNat - 48) * 10 ^ n + v, rest)
      | none => none
    else none

/-- Modelled from the spec: the timestamp codec is not under `src/`; a separator of the
pattern `HH:MM:SS,mmm` at the head of the text. -/
def expectChar (c : Char) : Str → Option Str
  | d :: s => if d = c then some s else none
  | [] => none

/-- Modelled from the spec: the timestamp codec is not under `src/`; the pattern
`HH:MM:SS` followed by the separator `sep` and `mmm` must match the whole text, and the
value is `(h*3600+m*60+s)*1000000 + mmm*1000` microseconds. -/
def parseClock (sep : Char) (s : Str) : Option Nat :=
  (takeDigits 2 s).bind fun p1 =>
  (expectChar ':' p1.2).bind fun s1 =>
  (takeDigits 2 s1).bind fun p2 =>
  (expectChar ':' p2.2).bind fun s2 =>
  (takeDigits 2 s2).bind fun p3 =>
  (expectChar sep p3.2).bind fun s3 =>
  (takeDigits 3 s3).bind fun p4 =>
  if p4.2 = [] then some ((p1.1 * 3600 + p2.1 * 60 + p3.1) * 1000000 + p4.1 * 1000)
  else none

/-- Modelled from the spec: `ParseSRT` is not under `src/`; "input pattern
`HH:MM:SS,mmm`", no value when "the pattern does not match exactly". -/
def ParseSRT (s : Str) : Option Nat := parseClock ',' s

/-- Modelled from the spec: `ParseDFXP` is not under `src/`; "input pattern
`HH:MM:SS.mmm`". -/
def ParseDFXP (s : Str) : Option Nat := parseClock '.' s

/-- Modelled from the spec: the timestamp codec is not under `src/`; the last `n` decimal
digits of `v`, zero-padded. -/
def padDigits : Nat → Nat → Str
  | 0, _ => []
  | n + 1, v => Char.ofNat (48 + v / 10 ^ n % 10) :: padDigits n v

/-- Modelled from the spec: the timestamp codec is not under `src/`; "zero-padded
`HH:MM:SS` plus 3-digit fractional part", for a time in microseconds. -/
def formatClock (sep : Char) (t : Nat) : Str :=
  padDigits 2 (t / 3600000000) ++ ':' :: padDigits 2 (t / 60000000 % 60) ++
    ':' :: padDigits 2 (t / 1000000 % 60) ++ sep :: padDigits 3 (t / 1000 % 1000)

/-- Modelled from the spec: `FormatSRT` is not under `src/`; the separator is `,`. -/
def FormatSRT (t : Nat) : Str := formatClock ',' t

/-- Modelled from the spec: `FormatDFXP` is not under `src/`; the separator is `.`. -/
def FormatDFXP (t : Nat) : Str := formatClock '.' t

/-- Modelled from the spec: `Caption.GetText` is not under `src/`; it "flattens nodes,
rendering `LineBreak` as a line separator and concatenating `Text` content, skipping
style-annotation nodes". -/
def Caption.GetText (c : Caption) : Str :=
  c.Nodes.foldl (fun acc n =>
    match n with
    | .text content => acc ++ content
    | .lineBreak => acc ++ ['\n']
    | .style _ => acc) []

/-- The contribution of one node to the text of a caption: the content of a Text node, a
newline for a LineBreak node, nothing for a Style node. -/
def Node.flat : Node → Str
  | .text content => content
  | .lineBreak => ['\n']
  | .style _ => []

/-- Modelled from the spec: the SRT reader is not under `src/`; the cue counter is a line
that "parses as a plain non-negative integer". -/
def isCounter (l : Str) : Bool := !l.isEmpty && l.all isDigit

/-- Modelled from the spec: the SRT reader is not under `src/`; a timing line is
`start --> end`, both "parsed via TimestampCodec SRT form". -/
def parseSrtTiming (l : Str) : Option (Nat × Nat) :=
  (ParseSRT (l.take 12)).bind fun startTime =>
  if (l.drop 12).take 5 = " --> ".toList then
    (ParseSRT (l.drop 17)).bind fun endTime => some (startTime, endTime)
  else none

/-- Modelled from the spec: the SRT reader is not under `src/`; where the block parser
stands: in counter position between cues, in front of the timing line that follows a
counter, or in the body of the pending cue. -/
inductive SrtPos where
  | counter
  | timing
  | body (c : Caption)

/-- Modelled from the spec: the SRT reader is not under `src/`; its position and the cues
finished so far. -/
structure SrtState where
  pos : SrtPos
  out : List Caption

/-- Modelled from the spec: the SRT reader is not under `src/`; a new line of text, with
"each line boundary inserted as a `LineBreak` node between `Text` nodes". -/
def srtAddText (c : Caption) (l : Str) : Caption :=
  if c.Nodes.isEmpty then { c with Nodes := [NewCaptionText l] }
  else { c with Nodes := c.Nodes ++ [NewLineBreak, NewCaptionText l] }

/-- Modelled from the spec: the SRT reader is not under `src/`; the start of a cue at a
timing line, which "must match `start --> end`", with the failure `MalformedTimestamp`. -/
def srtTiming (out : List Caption) (l : Str) : Except SpecError SrtState :=
  match parseSrtTiming l with
  | some (startTime, endTime) =>
    .ok ⟨.body ⟨.num startTime, .num endTime, []⟩, out⟩
  | none => .error .MalformedTimestamp

/-- Modelled from the spec: the SRT reader is not under `src/`; one physical line.  In
counter position an integer line is skipped and blank lines are tolerated; after it the
timing line must follow; in a body "non-blank lines are accumulated as the cue's text" and
"a cue terminates on a blank line". -/
def srtStep (st : SrtState) (l : Str) : Except SpecError SrtState :=
  match st.pos with
  | .counter =>
    if isCounter l then .ok ⟨.timing, st.out⟩
    else if trimSpace l = [] then .ok st
    else srtTiming st.out l
  | .timing => srtTiming st.out l
  | .body c =>
    if trimSpace l = [] then .ok ⟨.counter, st.out ++ [c]⟩
    else .ok ⟨.body (srtAddText c l), st.out⟩

/-- Modelled from the spec: the SRT reader is not under `src/`; the block parser over the
physical lines. -/
def srtRun (st : SrtState) : List Str → Except SpecError SrtState
  | [] => .ok st
  | l :: ls =>
    match srtStep st l with
    | .ok st1 => srtRun st1 ls
    | .error e => .error e

/-- Modelled from the spec: the SRT reader is not under `src/`; at the end of the input
the pending cue is finished. -/
def srtFinish (st : SrtState) : List Caption :=
  match st.pos with
  | .body c => st.out ++ [c]
  | _ => st.out

/-- Modelled from the spec: `SRTReader.Read` is not under `src/`; the cues of the lines
under the language `lang`, and "input containing no parseable cues fails with
`EmptyDocument`". -/
def SRTReader.ReadLines (lines : List Str) (lang : Str) : Except SpecError CaptionSet :=
  match srtRun ⟨.counter, []⟩ lines with
  | .error e => .error e
  | .ok st =>
    if (srtFinish st).isEmpty then .error .EmptyDocument
    else .ok (NewCaptionSet.SetCaptions lang (srtFinish st))

/-- Modelled from the spec: `SRTReader.Read` is not under `src/`; the content is read by
physical lines. -/
def SRTReader.Read (content : Str) (lang : Str) : Except SpecError CaptionSet :=
  SRTReader.ReadLines (content.splitOn '\n') lang

/-- The constant `sampleSRTnumeric` of `srt_reader_test.go`. -/
def sampleSRTnumeric : Str :=
  ("35\n00:00:32,290 --> 00:00:32,890\nTO  FIND  HIM.            IF\n\n" ++
   "36\n00:00:32,990 --> 00:00:33,590\nYOU  HAVE  ANY  INFORMATION\n\n" ++
   "37\n00:00:33,690 --> 00:00:34,290\nTHAT  CAN  HELP,  CALL  THE\n\n" ++
   "38\n00:00:34,390 --> 00:00:35,020\nSTOPPERS  LINE.          THAT\n\n" ++
   "39\n00:00:35,120 --> 00:00:35,760\nNUMBER  IS  662-429-84-77.\n\n" ++
   "40\n00:00:35,860 --> 00:00:36,360\nSTD  OUT\n\n" ++
   "41\n00:00:36,460 --> 00:02:11,500\n3\n").toList

/-- The constant `sampleSRTblankLines` of `srt_reader_test.go`. -/
def sampleSRTblankLines : Str :=
  ("35\n00:00:32,290 --> 00:00:32,890\n\n\n" ++
   "36\n00:00:32,990 --> 00:00:33,590\nYOU  HAVE  ANY  INFORMATION\n\n").toList

/-- A block of an SRT document: counter line, timing line, text lines. -/
structure SrtBlock where
  counter : Str
  timing : Str
  texts : List Str

/-- The lines of a block, with the blank line that ends it. -/
def SrtBlock.lines (b : SrtBlock) : List Str :=
  b.counter :: b.timing :: b.texts ++ [[]]

/-- A well-formed block: an integer counter, a timing line, one or more text lines none of
which is blank (a text line may consist of digits only). -/
def SrtBlock.WellFormed (b : SrtBlock) : Prop :=
  isCounter b.counter = true ∧ (parseSrtTiming b.timing).isSome = true ∧
  b.texts ≠ [] ∧ ∀ t ∈ b.texts, trimSpace t ≠ []

/-- The caption of a well-formed block. -/
def SrtBlock.caption (b : SrtBlock) : Caption :=
  match parseSrtTiming b.timing with
  | some (startTime, endTime) =>
    ⟨.num startTime, .num endTime, List.intersperse NewLineBreak (b.texts.map NewCaptionText)⟩
  | none => ⟨.num 0, .num 0, []⟩

/-- The `begin` and `end` values of the seven cues of `sampleDFXP` in `dfxp_test.go`. -/
def sampleDFXPTimes : List Str :=
  ["00:00:14.848".toList, "00:00:17.000".toList, "00:00:18.752".toList,
   "00:00:20.887".toList, "00:00:26.760".toList, "00:00:32.200".toList,
   "00:00:36.200".toList, "00:00:34.400".toList, "00:00:38.400".toList]

/-- A sample parser of timing lines that accepts every line: the cue starts and ends at the
length of the line. -/
def sampleTiming : Str → F64 → Run Caption :=
  fun l _ => .ok ⟨.num l.length, .num l.length, []⟩

/-- A sample document: a header, a cue of two text lines, a cue without text, and a timing
line followed at once by another one and a text line. -/
def sampleCueLines : List Str :=
  ["WEBVTT".toList, [], "a --> b".toList, ['x'], ['y'], [], "c --> d".toList, [],
   "e --> f".toList, "g --> h".toList, ['z']]

/-- The text `HH:MM:SS` followed by `sep` and `mmm` for the four field values. -/
def clockText (sep : Char) (hh mm ss ff : Nat) : Str :=
  padDigits 2 hh ++ ':' :: padDigits 2 mm ++ ':' :: padDigits 2 ss ++ sep :: padDigits 3 ff

/-! ## Rounding of `float64` on natural numbers -/

/-- The number of low bits a natural number loses when it is kept to the 53 bits of the
significand of a `float64`; the fuel exceeds the 1024 bits of the finite range. -/
def dropBits : Nat → Nat → Nat
  | 0, _ => 0
  | k + 1, n => if n < 2 ^ 53 then 0 else dropBits k (n / 2) + 1

/-- The `float64` nearest to the natural number `n`, a tie going to the even significand
(the rounding of IEEE 754 that Go uses), as a natural number. -/
def round53 (n : Nat) : Nat :=
  let sh := dropBits 1100 n
  let q := n / 2 ^ sh
  let r := n % 2 ^ sh
  if 2 * r < 2 ^ sh then q * 2 ^ sh
  else if 2 * r = 2 ^ sh ∧ q % 2 = 0 then q * 2 ^ sh
  else (q + 1) * 2 ^ sh

/-- The bound of the finite `float64` values, `2 ^ 1024`. -/
def overflowBound : Nat := (2 ^ 256) ^ 4

/-- The `float64` that an operation returns when its exact result is the natural number
`n`: the rounded value, or the positive infinity from `2 ^ 1024` on. -/
def f64OfNat (n : Nat) : F64 :=
  if round53 n < overflowBound then .num (round53 n) else .posInf

/-- The value of a text of decimal digits. -/
def digitsValue (s : Str) : Nat :=
  s.foldl (fun n c => 10 * n + (c.toNat - 48)) 0

/-- A field of decimal digits, not empty. -/
def IsDigits (s : Str) : Prop := s ≠ [] ∧ s.all isDigit = true

/-- The environment computes as Go does on the values met with fields of decimal digits:
`strconv.ParseFloat` returns the `float64` nearest to the value of the digits, or an error
when that is out of range, and the product and the sum of two `float64` that are natural
numbers are the exact result rounded, each operation on its own. -/
def Env.IEEE (env : Env) : Prop :=
  (∀ s, IsDigits s → env.parseFloat s =
    if round53 (digitsValue s) < overflowBound then some (.num (round53 (digitsValue s)))
    else none) ∧
  (∀ a b : Nat, round53 a = a → round53 b = b →
    env.mul (.num a) (.num b) = f64OfNat (a * b)) ∧
  (∀ a b : Nat, round53 a = a → round53 b = b →
    env.add (.num a) (.num b) = f64OfNat (a + b))

/-- The exact number of microseconds of four fields of decimal digits. -/
def exactMicroseconds (h m s f : Str) : Nat :=
  (digitsValue h * 3600 + digitsValue m * 60 + digitsValue s) * 1000000 +
    digitsValue f * 1000

/-- A sample environment with the rounding of `float64` on natural numbers; texts that are
not decimal digits and values that are not natural numbers are outside this sample. -/
def ieeeEnv : Env where
  splitLines := fun s => (s.splitOn '\n')
  parseFloat := fun s =>
    if s ≠ [] ∧ s.all isDigit = true then
      if round53 (digitsValue s) < overflowBound then some (.num (round53 (digitsValue s)))
      else none
    else none
  add := fun a b => match a, b with
    | .num x, .num y =>
      if x.den = 1 ∧ y.den = 1 then f64OfNat (x.num.toNat + y.num.toNat) else .nan
    | _, _ => .nan
  mul := fun a b => match a, b with
    | .num x, .num y =>
      if x.den = 1 ∧ y.den = 1 then f64OfNat (x.num.toNat * y.num.toNat) else .nan
    | _, _ => .nan

/-! # Theorems -/

/-! ## Timing lines and timestamps as written -/

theorem findAllStringAnchored_length_le (re : Re) (s : Str) :
    (findAllStringAnchored re s).length ≤ 1 := by
  unfold findAllStringAnchored
  cases matchPrefix re s with
  | none => simp
  | some p => simp

theorem parseTimestamp_eq_zero (env : Env) (input : Str) :
    parseTimestamp env input = .ok (.num 0) := by
  have h := findAllStringAnchored_length_le timestampPattern input
  unfold parseTimestamp
  simp only []
  rw [if_pos (by omega)]

theorem parseTimingLine_eq (env : Env) (r : Reader) (line : Str) (lastStartTime : F64) :
    parseTimingLine env r line lastStartTime =
      if (findAllStringAnchored timingPattern line).length = 0 then
        .error .invalidTimingFormat
      else .fault (.indexOutOfRange 1 1) := by
  have h := findAllStringAnchored_length_le timingPattern line
  unfold parseTimingLine
  simp only []
  split
  · rfl
  · rename_i h0
    have h1 : (findAllStringAnchored timingPattern line).length = 1 := by omega
    have h2 : index (findAllStringAnchored timingPattern line) 1
        = .fault (.indexOutOfRange 1 1) := by
      unfold index
      rw [List.get?_eq_none.mpr (by omega), h1]
    rw [h2]; rfl

theorem parseTimingLine_ne_ok (env : Env) (r : Reader) (line : Str) (lastStartTime : F64)
    (c : Caption) : parseTimingLine env r line lastStartTime ≠ .ok c := by
  rw [parseTimingLine_eq]
  split <;> simp

/-- C1, the code as written: on the document made of the lines `WEBVTT`, blank,
`00:00:01.000 --> 00:00:04.000`, `Hello`, blank, `parse` and `ReadString` return neither a
caption set nor an error; they stop on the access `matches[1]` of `parseTimingLine`, whose
match list has length 1. -/
theorem readString_sample_faults (env : Env) (r : Reader) :
    lineEnv.splitLines sampleDocument =
      ["WEBVTT".toList, [], "00:00:01.000 --> 00:00:04.000".toList, "Hello".toList, []] ∧
    parse env r (lineEnv.splitLines sampleDocument) = .fault (.indexOutOfRange 1 1) ∧
    ReadString lineEnv r sampleDocument = .fault (.indexOutOfRange 1 1) := by
  refine ⟨by decide, ?_, ?_⟩ <;> rfl

/-- C2, the code as written: `parseTimestamp` returns 0 with a nil error on `00:00:18.752`
and on `00:18.752`, where the grammar gives 18752000; its match list never has the four
elements its length check asks for. -/
theorem parseTimestamp_sample_zero (env : Env) :
    findAllStringAnchored timestampPattern "00:00:18.752".toList = ["00:00:18.752".toList] ∧
    parseTimestamp env "00:00:18.752".toList = .ok (.num 0) ∧
    parseTimestamp env "00:18.752".toList = .ok (.num 0) :=
  ⟨by decide, parseTimestamp_eq_zero env _, parseTimestamp_eq_zero env _⟩

/-- C3, the code as written: on `abc` and on the empty string, which do not match the
timestamp grammar, `parseTimestamp` returns the pair (0, nil) and no error. -/
theorem parseTimestamp_malformed_zero (env : Env) :
    findAllStringAnchored timestampPattern "abc".toList = [] ∧
    parseTimestamp env "abc".toList = .ok (.num 0) ∧
    parseTimestamp env [] = .ok (.num 0) :=
  ⟨by decide, parseTimestamp_eq_zero env _, parseTimestamp_eq_zero env _⟩

/-- C4, the code as written: for a reader with `ignoreTimingErrors = false`, the timing line
`00:00:04.000 --> 00:00:01.000`, whose start is after its end, makes `parseTimingLine` stop
on the access `matches[1]`, and no line at all makes it return one of the two errors of
`validateTimings`, whose value it drops. -/
theorem parseTimingLine_no_timing_error (env : Env) (lastStartTime : F64) :
    parseTimingLine env (NewReader false) "00:00:04.000 --> 00:00:01.000".toList
        lastStartTime = .fault (.indexOutOfRange 1 1) ∧
    validateTimings ⟨.num 4000000, .num 1000000, []⟩ (.num 0) = some .endNotGreater ∧
    ∀ line, parseTimingLine env (NewReader false) line lastStartTime ≠ .error .endNotGreater ∧
      parseTimingLine env (NewReader false) line lastStartTime ≠ .error .startNotGreater := by
  refine ⟨rfl, by decide, fun line => ?_⟩
  rw [parseTimingLine_eq]
  constructor <;> split <;> simp

/-! ## Detection -/

theorem startsWith_iff (s p : Str) : startsWith s p = true ↔ ∃ t, s = p ++ t := by
  induction p generalizing s with
  | nil => simp [startsWith]
  | cons d p ih =>
    cases s with
    | nil => simp [startsWith]
    | cons c s =>
      simp only [startsWith, Bool.and_eq_true, beq_iff_eq, ih, List.cons_append,
        List.cons.injEq]
      constructor
      · rintro ⟨rfl, t, rfl⟩; exact ⟨t, rfl, rfl⟩
      · rintro ⟨t, rfl, rfl⟩; exact ⟨rfl, t, rfl⟩

theorem stringsContains_iff (s sub : Str) :
    stringsContains s sub = true ↔ ∃ pre post, s = pre ++ sub ++ post := by
  induction s with
  | nil =>
    simp only [stringsContains, startsWith_iff]
    constructor
    · rintro ⟨t, h⟩; exact ⟨[], t, by simpa using h⟩
    · rintro ⟨pre, post, h⟩
      cases sub with
      | nil => exact ⟨[], rfl⟩
      | cons a b => simp at h
  | cons c s ih =>
    simp only [stringsContains, Bool.or_eq_true, startsWith_iff, ih]
    constructor
    · rintro (⟨t, h⟩ | ⟨pre, post, h⟩)
      · exact ⟨[], t, by simpa using h⟩
      · exact ⟨c :: pre, post, by simp [h]⟩
    · rintro ⟨pre, post, h⟩
      cases pre with
      | nil => exact Or.inl ⟨post, by simpa using h⟩
      | cons d pre =>
        simp only [List.cons_append, List.cons.injEq] at h
        exact Or.inr ⟨pre, post, h.2⟩

/-- C5: for every content, `DetectString content`, and `Detect` on the same bytes, is true
exactly when `WEBVTT` occurs in the content, whatever stands before and after it; both are
total functions to a boolean, so neither fails. -/
theorem detectString_iff (content : Str) :
    (DetectString content = true ↔ ∃ pre post, content = pre ++ "WEBVTT".toList ++ post) ∧
    Detect content = DetectString content := by
  exact ⟨stringsContains_iff content _, rfl⟩

/-! ## Markup stripping -/

theorem otherSpanPattern_eq : otherSpanPattern =
  .seq (.chr '<')
    (.seq (.opt (.chr '/'))
      (.seq (.alt (.cls (fun c => c == 'c' || c == 'i' || c == 'b' || c == 'u' || c == 'v'))
              (.alt (.seq (.chr 'r') (.seq (.chr 'u') (.seq (.chr 'b') (.chr 'y'))))
                 (.alt (.seq (.chr 'r') (.chr 't'))
                   (.seq (.chr 'l') (.seq (.chr 'a') (.seq (.chr 'n') (.chr 'g')))))))
        (.seq (.lazyStar .any) (.chr '>')))) := rfl

theorem voiceSpanPattern_eq : voiceSpanPattern =
  .seq (.seq (.chr '<') (.chr 'v'))
    (.seq (.star (.seq (.chr '\\') (.seq .any (.seq (.chr '\\')
        (.seq (.chr 'w') (.star (.chr 'w')))))))
      (.seq (.chr ' ') (.seq (.star (.cls (fun c => c != '>'))) (.chr '>')))) := rfl

theorem other_no_match (c : Char) (t : Str) (h : c ≠ '<') :
    matchRe otherSpanPattern (c :: t) = [] := by
  simp [otherSpanPattern_eq, matchRe, h]

theorem voice_no_match (c : Char) (t : Str) (h : c ≠ '<') :
    matchRe voiceSpanPattern (c :: t) = [] := by
  simp [voiceSpanPattern_eq, matchRe, h]

theorem voice_no_match_lt (t : Str) (h : ∀ d u, t = d :: u → d ≠ 'v') :
    matchRe voiceSpanPattern ('<' :: t) = [] := by
  cases t with
  | nil => simp [voiceSpanPattern_eq, matchRe]
  | cons d u =>
    have := h d u rfl
    simp [voiceSpanPattern_eq, matchRe, this]

theorem replaceAllLoop_match (re : Re) (repl : Str) (n : Nat) (c : Char) (t rest : Str)
    (h : (matchRe re (c :: t)).head? = some rest) :
    replaceAllLoop re repl (n + 1) (c :: t) = repl ++ replaceAllLoop re repl n rest := by
  cases hm : matchRe re (c :: t) with
  | nil => simp [hm] at h
  | cons a b =>
    simp only [hm, List.head?_cons, Option.some.injEq] at h
    rw [replaceAllLoop, hm, h]

theorem replaceAllLoop_skip (re : Re) (repl : Str) (n : Nat) (c : Char) (t : Str)
    (h : matchRe re (c :: t) = []) :
    replaceAllLoop re repl (n + 1) (c :: t) = c :: replaceAllLoop re repl n t := by
  rw [replaceAllLoop, h]

theorem other_text (t rest : Str) (ht : '<' ∉ t) (n : Nat) :
    replaceAllLoop otherSpanPattern [] (n + t.length) (t ++ rest) =
      t ++ replaceAllLoop otherSpanPattern [] n rest := by
  induction t with
  | nil => simp
  | cons c t ih =>
    simp only [List.mem_cons, not_or] at ht
    have hc : c ≠ '<' := fun e => ht.1 e.symm
    have e : n + (c :: t).length = (n + t.length) + 1 := by simp; omega
    rw [e, List.cons_append, replaceAllLoop_skip _ _ _ _ _ (other_no_match c _ hc), ih ht.2,
      List.cons_append]

theorem lazy_tail (a rest : Str) (h1 : '>' ∉ a) (h2 : '\n' ∉ a) (n : Nat)
    (hn : a.length < n) :
    ((lazyStarLoop (matchRe .any) n (a ++ '>' :: rest)).flatMap
      (matchRe (.chr '>'))).head? = some rest := by
  induction a generalizing n with
  | nil =>
    obtain ⟨k, rfl⟩ : ∃ k, n = k + 1 := ⟨n - 1, by simp at hn; omega⟩
    simp [lazyStarLoop, matchRe]
  | cons c a ih =>
    obtain ⟨k, rfl⟩ : ∃ k, n = k + 1 := ⟨n - 1, by simp at hn; omega⟩
    simp only [List.mem_cons, not_or] at h1 h2
    have hc1 : c ≠ '>' := fun e => h1.1 e.symm
    have hc2 : c ≠ '\n' := fun e => h2.1 e.symm
    have := ih h1.2 h2.2 k (by simp at hn; omega)
    have e1 : matchRe .any (c :: (a ++ '>' :: rest)) = [a ++ '>' :: rest] := by
      simp [matchRe, hc2]
    have e2 : matchRe (.chr '>') (c :: (a ++ '>' :: rest)) = [] := by
      simp [matchRe, hc1]
    rw [List.cons_append, lazyStarLoop, e1]
    simp only [List.flatMap_cons, List.flatMap_nil, List.append_nil, e2, List.nil_append]
    exact this

theorem other_tail (a rest : Str) (h1 : '>' ∉ a) (h2 : '\n' ∉ a) :
    (matchRe (.seq (.lazyStar .any) (.chr '>')) (a ++ '>' :: rest)).head? = some rest := by
  rw [matchRe, matchRe]
  exact lazy_tail a rest h1 h2 _ (by simp)

theorem starLoop_nil (m : Str → List Str) (n : Nat) (s : Str) (h : m s = []) :
    starLoop m n s = [s] := by
  cases n with
  | zero => rfl
  | succ k => simp [starLoop, h]

theorem greedy_tail (a rest : Str) (h1 : '>' ∉ a) (n : Nat) (hn : a.length ≤ n) :
    (starLoop (matchRe (.cls (fun c => c != '>'))) n (a ++ '>' :: rest)).flatMap
      (matchRe (.chr '>')) = [rest] := by
  induction a generalizing n with
  | nil =>
    have e : matchRe (.cls (fun c => c != '>')) ('>' :: rest) = [] := by simp [matchRe]
    rw [List.nil_append, starLoop_nil _ n _ e]
    simp [matchRe]
  | cons c a ih =>
    obtain ⟨k, rfl⟩ : ∃ k, n = k + 1 := ⟨n - 1, by simp at hn; omega⟩
    simp only [List.mem_cons, not_or] at h1
    have hc1 : c ≠ '>' := fun e => h1.1 e.symm
    have e1 : matchRe (.cls (fun c => c != '>')) (c :: (a ++ '>' :: rest))
        = [a ++ '>' :: rest] := by
      simp [matchRe, hc1]
    have e2 : matchRe (.chr '>') (c :: (a ++ '>' :: rest)) = [] := by
      simp [matchRe, hc1]
    rw [List.cons_append, starLoop, e1]
    simp only [List.flatMap_cons, List.flatMap_nil, List.append_nil, List.flatMap_append, e2]
    exact ih h1.2 k (by simp at hn; omega)

theorem voice_tail (a rest : Str) (h1 : '>' ∉ a) :
    matchRe (.seq (.star (.cls (fun c => c != '>'))) (.chr '>')) (a ++ '>' :: rest)
      = [rest] := by
  rw [matchRe, matchRe]
  exact greedy_tail a rest h1 _ (by simp)

theorem voice_group (s : Str) (h : ∀ u, s ≠ '\\' :: u) :
    matchRe (.star (.seq (.chr '\\') (.seq .any (.seq (.chr '\\')
        (.seq (.chr 'w') (.star (.chr 'w'))))))) s = [s] := by
  rw [matchRe]
  apply starLoop_nil
  cases s with
  | nil => simp [matchRe]
  | cons d u =>
    have hd : d ≠ '\\' := by
      rintro rfl
      exact h u rfl
    simp [matchRe, hd]

theorem voice_match_space (a rest : Str) (h1 : '>' ∉ a) :
    matchRe voiceSpanPattern ('<' :: 'v' :: ' ' :: a ++ '>' :: rest) = [rest] := by
  have kT := voice_tail a rest h1
  have kG := voice_group (' ' :: a ++ '>' :: rest) (by simp)
  rw [voiceSpanPattern_eq]
  generalize Re.seq (.star (.cls (fun c => c != '>'))) (.chr '>') = T at kT ⊢
  generalize Re.star (.seq (.chr '\\') (.seq .any (.seq (.chr '\\')
        (.seq (.chr 'w') (.star (.chr 'w')))))) = G at kG ⊢
  simp only [List.cons_append] at kG
  simp [matchRe, kT, kG]

theorem voice_match_other (s : Str) (h1 : ∀ u, s ≠ '\\' :: u) (h2 : ∀ u, s ≠ ' ' :: u) :
    matchRe voiceSpanPattern ('<' :: 'v' :: s) = [] := by
  have kG := voice_group s h1
  rw [voiceSpanPattern_eq]
  generalize Re.seq (.star (.cls (fun c => c != '>'))) (.chr '>') = T
  generalize Re.star (.seq (.chr '\\') (.seq .any (.seq (.chr '\\')
        (.seq (.chr 'w') (.star (.chr 'w')))))) = G at kG ⊢
  cases s with
  | nil => simp [matchRe, kG]
  | cons d u =>
    have hd : d ≠ ' ' := by
      rintro rfl
      exact h2 u rfl
    simp [matchRe, kG, hd]

theorem other_match_tag (closing : Bool) (n ann rest : Str)
    (hn : n ∈ tagNames ∨ (closing = true ∧ n = ['v'])) (ha : AnnotationOk ann) :
    (matchRe otherSpanPattern ((Piece.tag closing n ann).render ++ rest)).head?
      = some rest := by
  have key := other_tail ann rest ha.2.1 ha.2.2
  rw [otherSpanPattern_eq]
  generalize Re.seq (.lazyStar .any) (.chr '>') = T at key ⊢
  simp only [tagNames, List.mem_cons, List.mem_singleton, List.not_mem_nil, or_false] at hn
  cases closing
  · rcases hn with hn | ⟨h, _⟩
    · rcases hn with rfl | rfl | rfl | rfl | rfl | rfl | rfl <;>
        simp [Piece.render, matchRe, key]
    · cases h
  · rcases hn with hn | ⟨_, rfl⟩
    · rcases hn with rfl | rfl | rfl | rfl | rfl | rfl | rfl <;>
        simp [Piece.render, matchRe, key]
    · simp [Piece.render, matchRe, key]

theorem other_match_voice (ann rest : Str) (ha : AnnotationOk ann) :
    (matchRe otherSpanPattern ((Piece.voice ann).render ++ rest)).head? = some rest := by
  have key := other_tail ann rest ha.2.1 ha.2.2
  rw [otherSpanPattern_eq]
  generalize Re.seq (.lazyStar .any) (.chr '>') = T at key ⊢
  simp [Piece.render, matchRe, key]

theorem voice_text (repl t rest : Str) (ht : '<' ∉ t) (n : Nat) (hn : t.length ≤ n) :
    replaceAllLoop voiceSpanPattern repl n (t ++ rest) =
      t ++ replaceAllLoop voiceSpanPattern repl (n - t.length) rest := by
  induction t generalizing n with
  | nil => simp
  | cons c t ih =>
    simp only [List.mem_cons, not_or] at ht
    have hc : c ≠ '<' := fun e => ht.1 e.symm
    obtain ⟨m, rfl⟩ : ∃ m, n = m + 1 := ⟨n - 1, by simp at hn; omega⟩
    rw [List.cons_append, replaceAllLoop_skip _ _ _ _ _ (voice_no_match c _ hc),
      ih ht.2 m (by simp at hn; omega), List.cons_append]
    simp

theorem voice_chunk (repl chunk rest : Str) (b : Char) (bs : Str)
    (hr : chunk = '<' :: b :: bs) (hb : '<' ∉ b :: bs)
    (hm : matchRe voiceSpanPattern (chunk ++ rest) = []) (n : Nat)
    (hn : chunk.length ≤ n) :
    replaceAllLoop voiceSpanPattern repl n (chunk ++ rest) =
      chunk ++ replaceAllLoop voiceSpanPattern repl (n - chunk.length) rest := by
  subst hr
  obtain ⟨m, rfl⟩ : ∃ m, n = m + 1 := ⟨n - 1, by simp at hn; omega⟩
  have e : '<' :: b :: bs ++ rest = '<' :: ((b :: bs) ++ rest) := rfl
  rw [e] at hm ⊢
  rw [replaceAllLoop_skip _ _ _ _ _ hm, voice_text _ (b :: bs) _ hb m (by simp at hn ⊢; omega)]
  simp

theorem wellFormed_afterVoice (p : Piece) (h : p.WellFormed) : p.afterVoice.WellFormed := by
  cases p with
  | text t => exact h
  | tag closing n ann => exact h
  | voice ann =>
    cases ann with
    | nil => exact h
    | cons d u =>
      by_cases hd : d = ' '
      · simp only [Piece.afterVoice, hd, if_true, Piece.WellFormed, voiceReplacement]
        decide
      · simp only [Piece.afterVoice, hd, if_false]
        exact h

theorem tag_body (closing : Bool) (n ann : Str)
    (hn : n ∈ tagNames ∨ (closing = true ∧ n = ['v'])) (ha : AnnotationOk ann) :
    ∃ b bs, (Piece.tag closing n ann).render = '<' :: b :: bs ∧ '<' ∉ b :: bs ∧ b ≠ 'v' := by
  obtain ⟨h1, h2, h3⟩ := ha
  simp only [tagNames, List.mem_cons, List.mem_singleton, List.not_mem_nil, or_false] at hn
  cases closing
  · rcases hn with hn | ⟨h, _⟩
    · rcases hn with rfl | rfl | rfl | rfl | rfl | rfl | rfl <;>
        exact ⟨_, _, rfl, by simp [h1], by decide⟩
    · cases h
  · rcases hn with hn | ⟨_, rfl⟩
    · rcases hn with rfl | rfl | rfl | rfl | rfl | rfl | rfl <;>
        exact ⟨_, _, rfl, by simp [h1], by decide⟩
    · exact ⟨_, _, rfl, by simp [h1], by decide⟩

theorem voice_match_plain (ann rest : Str) (h1 : ∀ u, ann ≠ '\\' :: u)
    (h2 : ∀ u, ann ≠ ' ' :: u) :
    matchRe voiceSpanPattern ((Piece.voice ann).render ++ rest) = [] := by
  have e : (Piece.voice ann).render ++ rest = '<' :: 'v' :: (ann ++ '>' :: rest) := by
    simp [Piece.render]
  rw [e]
  apply voice_match_other
  · intro u hu
    cases ann with
    | nil => simp at hu
    | cons d w =>
      simp only [List.cons_append, List.cons.injEq] at hu
      exact h1 w (by rw [hu.1])
  · intro u hu
    cases ann with
    | nil => simp at hu
    | cons d w =>
      simp only [List.cons_append, List.cons.injEq] at hu
      exact h2 w (by rw [hu.1])

theorem voice_pieces (ps : List Piece) (h : ∀ p ∈ ps, p.WellFormed) (n : Nat)
    (hn : (renderPieces ps).length < n) :
    replaceAllLoop voiceSpanPattern voiceReplacement n (renderPieces ps) =
      renderPieces (ps.map Piece.afterVoice) := by
  induction ps generalizing n with
  | nil =>
    cases n with
    | zero => rfl
    | succ n => rfl
  | cons p ps ih =>
    have hp := h p (List.mem_cons_self _ _)
    have ih1 := ih (fun q hq => h q (List.mem_cons_of_mem _ hq))
    have e : renderPieces (p :: ps) = p.render ++ renderPieces ps := by
      simp [renderPieces]
    have e2 : renderPieces ((p :: ps).map Piece.afterVoice) =
        p.afterVoice.render ++ renderPieces (ps.map Piece.afterVoice) := by
      simp [renderPieces]
    rw [e] at hn ⊢
    rw [e2]
    simp only [List.length_append] at hn
    cases p with
    | text t =>
      simp only [Piece.render, Piece.afterVoice] at hn ⊢
      rw [voice_text _ t _ hp n (by omega), ih1 _ (by omega)]
    | tag closing nm ann =>
      obtain ⟨b, bs, hb1, hb2, hb3⟩ := tag_body closing nm ann hp.1 hp.2
      have hm : matchRe voiceSpanPattern ((Piece.tag closing nm ann).render ++
          renderPieces ps) = [] := by
        rw [hb1]
        exact voice_no_match_lt _ (by
          rintro d u hdu rfl
          injection hdu with h1 h2
          exact hb3 h1)
      rw [voice_chunk _ _ _ b bs hb1 hb2 hm n (by omega), ih1 _ (by omega)]
      rfl
    | voice ann =>
      obtain ⟨⟨ha1, ha2, ha3⟩, hbs⟩ := hp
      by_cases hsp : ∃ u, ann = ' ' :: u
      · obtain ⟨u, rfl⟩ := hsp
        simp only [List.mem_cons, not_or] at ha2
        obtain ⟨m, rfl⟩ : ∃ m, n = m + 1 := ⟨n - 1, by omega⟩
        have hm := voice_match_space u (renderPieces ps) ha2.2
        have e3 : (Piece.voice (' ' :: u)).render ++ renderPieces ps =
            '<' :: ('v' :: ' ' :: u ++ '>' :: renderPieces ps) := by
          simp [Piece.render]
        have e4 : (Piece.voice (' ' :: u)).afterVoice.render = voiceReplacement := by
          simp [Piece.afterVoice, Piece.render]
        have hm2 : (matchRe voiceSpanPattern
            ('<' :: ('v' :: ' ' :: u ++ '>' :: renderPieces ps))).head?
            = some (renderPieces ps) := congrArg List.head? hm
        rw [e3, e4, replaceAllLoop_match _ _ m _ _ _ hm2,
          ih1 m (by simp [Piece.render] at hn; omega)]
      · have hns : ∀ u, ann ≠ ' ' :: u := fun u hu => hsp ⟨u, hu⟩
        have hm := voice_match_plain ann (renderPieces ps) hbs hns
        have e3 : (Piece.voice ann).render = '<' :: 'v' :: (ann ++ ['>']) := by
          simp [Piece.render]
        have e4 : (Piece.voice ann).afterVoice = Piece.voice ann := by
          cases ann with
          | nil => rfl
          | cons d u =>
            have hd : d ≠ ' ' := by
              rintro rfl
              exact hns u rfl
            simp [Piece.afterVoice, hd]
        rw [e4, voice_chunk _ _ _ 'v' (ann ++ ['>']) e3
          (by simp [ha1]) hm n (by omega), ih1 _ (by omega)]

theorem other_text_le (t rest : Str) (ht : '<' ∉ t) (n : Nat) (hn : t.length ≤ n) :
    replaceAllLoop otherSpanPattern [] n (t ++ rest) =
      t ++ replaceAllLoop otherSpanPattern [] (n - t.length) rest := by
  obtain ⟨m, rfl⟩ : ∃ m, n = m + t.length := ⟨n - t.length, by omega⟩
  rw [other_text t rest ht m]
  simp

theorem other_chunk (chunk rest : Str)
    (hm : (matchRe otherSpanPattern (chunk ++ rest)).head? = some rest)
    (hc : chunk ≠ []) (n : Nat) (hn : 0 < n) :
    replaceAllLoop otherSpanPattern [] n (chunk ++ rest) =
      replaceAllLoop otherSpanPattern [] (n - 1) rest := by
  obtain ⟨m, rfl⟩ : ∃ m, n = m + 1 := ⟨n - 1, by omega⟩
  cases chunk with
  | nil => exact absurd rfl hc
  | cons c cs =>
    rw [List.cons_append] at hm ⊢
    rw [replaceAllLoop_match _ _ _ _ _ rest hm]
    simp

theorem other_pieces (ps : List Piece) (h : ∀ p ∈ ps, p.WellFormed) (n : Nat)
    (hn : (renderPieces ps).length < n) :
    replaceAllLoop otherSpanPattern [] n (renderPieces ps) = plainPieces ps := by
  induction ps generalizing n with
  | nil =>
    cases n with
    | zero => rfl
    | succ n => rfl
  | cons p ps ih =>
    have hp := h p (List.mem_cons_self _ _)
    have ih1 := ih (fun q hq => h q (List.mem_cons_of_mem _ hq))
    have e : renderPieces (p :: ps) = p.render ++ renderPieces ps := by
      simp [renderPieces]
    have e2 : plainPieces (p :: ps) = p.plain ++ plainPieces ps := by
      simp [plainPieces]
    rw [e] at hn ⊢
    rw [e2]
    simp only [List.length_append] at hn
    cases p with
    | text t =>
      simp only [Piece.render, Piece.plain] at hn ⊢
      rw [other_text_le t _ hp n (by omega), ih1 _ (by omega)]
    | tag closing nm ann =>
      have hlen : 0 < (Piece.tag closing nm ann).render.length := by
        cases closing <;> simp [Piece.render]
      rw [other_chunk _ _ (other_match_tag closing nm ann _ hp.1 hp.2)
        (by intro e0; rw [e0] at hlen; simp at hlen) n (by omega), ih1 _ (by omega)]
      rfl
    | voice ann =>
      have hlen : 0 < (Piece.voice ann).render.length := by simp [Piece.render]
      rw [other_chunk _ _ (other_match_voice ann _ hp.1)
        (by intro e0; rw [e0] at hlen; simp at hlen) n (by omega), ih1 _ (by omega)]
      rfl

theorem plainPieces_no_lt (ps : List Piece) (h : ∀ p ∈ ps, p.WellFormed) :
    '<' ∉ plainPieces ps := by
  intro hm
  simp only [plainPieces, List.mem_flatMap] at hm
  obtain ⟨p, hp, hc⟩ := hm
  have := h p hp
  cases p with
  | text t => exact this hc
  | tag closing n ann => simp [Piece.plain] at hc
  | voice ann => simp [Piece.plain] at hc

theorem removeStyles_pieces (ps : List Piece) (h : ∀ p ∈ ps, p.WellFormed) :
    removeStyles (renderPieces ps) = plainPieces (ps.map Piece.afterVoice) := by
  have hw : ∀ p ∈ ps.map Piece.afterVoice, p.WellFormed := by
    intro p hp
    obtain ⟨q, hq, rfl⟩ := List.mem_map.mp hp
    exact wellFormed_afterVoice q (h q hq)
  unfold removeStyles replaceAllString
  simp only []
  rw [voice_pieces ps h _ (by omega)]
  exact other_pieces _ hw _ (by omega)

theorem afterVoice_of_not_voice (ps : List Piece) (h : ∀ p ∈ ps, p.isVoice = false) :
    ps.map Piece.afterVoice = ps := by
  induction ps with
  | nil => rfl
  | cons p ps ih =>
    have hp := h p (List.mem_cons_self _ _)
    rw [List.map_cons, ih (fun q hq => h q (List.mem_cons_of_mem _ hq))]
    cases p with
    | text t => rfl
    | tag closing n ann => rfl
    | voice ann => simp [Piece.isVoice] at hp

/-! ## Documents without a cue -/

theorem trimSpace_infix (s : Str) : ∃ pre post, s = pre ++ trimSpace s ++ post := by
  obtain ⟨t, ht⟩ := List.dropWhile_suffix (l := s) isSpace
  obtain ⟨u, hu⟩ := List.dropWhile_suffix (l := (s.dropWhile isSpace).reverse) isSpace
  refine ⟨t, u.reverse, ?_⟩
  have h1 : s.dropWhile isSpace = trimSpace s ++ u.reverse := by
    have := congrArg List.reverse hu
    simp only [List.reverse_append, List.reverse_reverse] at this
    exact this.symm
  rw [List.append_assoc, ← h1, ht]

theorem contains_of_trim (l sub : Str) (h : stringsContains (trimSpace l) sub = true) :
    stringsContains l sub = true := by
  rw [stringsContains_iff] at h ⊢
  obtain ⟨pre, post, h⟩ := h
  obtain ⟨a, b, hab⟩ := trimSpace_infix l
  refine ⟨a ++ pre, post ++ b, ?_⟩
  rw [hab, h]
  simp

theorem not_contains_trim (l sub : Str) (h : stringsContains l sub = false) :
    stringsContains (trimSpace l) sub = false := by
  cases hc : stringsContains (trimSpace l) sub with
  | false => rfl
  | true => rw [contains_of_trim l sub hc] at h; exact absurd h (by simp)

theorem parseLoop_no_timing (timing : Str → F64 → Run Caption) (i : Nat) (lines : List Str)
    (st : ParseState) (hst : st.foundTiming = false)
    (h : ∀ l ∈ lines, stringsContains l webvttTiming = false) :
    parseLoop timing i lines st = .ok st := by
  induction lines generalizing i with
  | nil => rfl
  | cons l ls ih =>
    have hl := not_contains_trim l _ (h l (List.mem_cons_self _ _))
    have hs : parseStep timing i l st = .ok st := by
      simp [parseStep, hl, hst]
    rw [parseLoop, hs]
    exact ih (i + 1) (fun q hq => h q (List.mem_cons_of_mem _ hq))

theorem parseWith_no_timing (timing : Str → F64 → Run Caption) (lines : List Str)
    (h : ∀ l ∈ lines, stringsContains l webvttTiming = false) :
    parseWith timing lines = .ok [] := by
  rw [parseWith, parseLoop_no_timing timing 0 lines _ rfl h]
  rfl

/-- C6: for every content on which `parse` returns an empty caption list without error,
`ReadString` returns no caption set and the error `empty caption file`; this is the case of
every content none of whose lines contains `-->`. -/
theorem readString_empty (env : Env) (r : Reader) (content : Str) :
    (parse env r (env.splitLines content) = .ok [] →
      ReadString env r content = .error .emptyCaptionFile) ∧
    ((∀ l ∈ env.splitLines content, stringsContains l webvttTiming = false) →
      parse env r (env.splitLines content) = .ok [] ∧
      ReadString env r content = .error .emptyCaptionFile) := by
  have key : parse env r (env.splitLines content) = .ok [] →
      ReadString env r content = .error .emptyCaptionFile := by
    intro h
    simp [ReadString, h, CaptionSet.SetCaptions, CaptionSet.IsEmpty, NewCaptionSet]
  refine ⟨key, fun h => ?_⟩
  have hp : parse env r (env.splitLines content) = .ok [] := parseWith_no_timing _ _ h
  exact ⟨hp, key hp⟩

/-- C6 at the empty content and at a lone `WEBVTT` header. -/
theorem readString_empty_witness :
    ReadString lineEnv (NewReader false) [] = .error .emptyCaptionFile ∧
    ReadString lineEnv (NewReader false) "WEBVTT".toList = .error .emptyCaptionFile :=
  ⟨(readString_empty lineEnv (NewReader false) []).1 (by decide),
   ((readString_empty lineEnv (NewReader false) "WEBVTT".toList).2 (by decide)).2⟩

/-- C7, the code as written: `removeStyles` turns `<v Bob>Hello` into a backslash, the
digit 2, a colon, a space and `Hello`, not into `Bob: Hello`; the replacement text is
inserted as it is, the speaker name is dropped. -/
theorem removeStyles_voice_sample :
    removeStyles "<v Bob>Hello".toList = ['\\', '2', ':', ' ', 'H', 'e', 'l', 'l', 'o'] ∧
    removeStyles "<v Bob>Hello".toList ≠ "Bob: Hello".toList := by
  decide

/-- C8 as stated fails: the line `<<c>c>` loses its inner tag `<c>` and what is left is
the tag `<c>`, so not every result of `removeStyles` is free of recognized tags. -/
theorem removeStyles_leaves_tag :
    ¬ ∀ line n, n ∈ tagNames →
      stringsContains (removeStyles line) (openTag n) = false ∧
      stringsContains (removeStyles line) (closeTag n) = false := by
  intro h
  have h1 := (h "<<c>c>".toList ['c'] (by decide)).1
  revert h1
  decide

/-- C8, amended: for every tag name `n` among `c`, `i`, `b`, `u`, `lang`, `ruby`, `rt` and
every text `t` without `<`, `removeStyles` maps `<n>t</n>` to `t`; and for every line made
of pieces of text without `<` and of opening and closing tags with a recognized name and
an annotation (without `<`, `>` or newline; after `<v`, not beginning with a backslash),
the result of `removeStyles` contains no `<`, hence no tag, and when the line has no
opening voice tag the result is the text of the pieces. -/
theorem removeStyles_tags :
    (∀ n ∈ tagNames, ∀ t : Str, '<' ∉ t →
      removeStyles (openTag n ++ t ++ closeTag n) = t) ∧
    (∀ ps : List Piece, (∀ p ∈ ps, p.WellFormed) →
      '<' ∉ removeStyles (renderPieces ps)) ∧
    (∀ ps : List Piece, (∀ p ∈ ps, p.WellFormed) → (∀ p ∈ ps, p.isVoice = false) →
      removeStyles (renderPieces ps) = plainPieces ps) := by
  have h3 : ∀ ps : List Piece, (∀ p ∈ ps, p.WellFormed) → (∀ p ∈ ps, p.isVoice = false) →
      removeStyles (renderPieces ps) = plainPieces ps := by
    intro ps h hv
    rw [removeStyles_pieces ps h, afterVoice_of_not_voice ps hv]
  refine ⟨?_, ?_, h3⟩
  · intro n hn t ht
    have h := h3 [.tag false n [], .text t, .tag true n []] (by
      intro p hp
      simp only [List.mem_cons, List.mem_singleton, List.not_mem_nil, or_false] at hp
      rcases hp with rfl | rfl | rfl
      · exact ⟨Or.inl hn, by simp [AnnotationOk]⟩
      · exact ht
      · exact ⟨Or.inl hn, by simp [AnnotationOk]⟩) (by
      intro p hp
      simp only [List.mem_cons, List.mem_singleton, List.not_mem_nil, or_false] at hp
      rcases hp with rfl | rfl | rfl <;> rfl)
    simpa [renderPieces, plainPieces, Piece.render, Piece.plain, openTag, closeTag] using h
  · intro ps h
    rw [removeStyles_pieces ps h]
    apply plainPieces_no_lt
    intro p hp
    obtain ⟨q, hq, rfl⟩ := List.mem_map.mp hp
    exact wellFormed_afterVoice q (h q hq)

/-- C8 at `<b>Hello</b>`, at the annotated tags of `<c.yellow>Hi</c>` and
`<lang en>Hi</lang>`, and at the line `<v Bob>Hello</v>`. -/
theorem removeStyles_tags_witness :
    removeStyles (openTag ['b'] ++ "Hello".toList ++ closeTag ['b']) = "Hello".toList ∧
    renderPieces [.tag false ['c'] ".yellow".toList, .text "Hi".toList, .tag true ['c'] []]
      = "<c.yellow>Hi</c>".toList ∧
    removeStyles (renderPieces
      [.tag false ['c'] ".yellow".toList, .text "Hi".toList, .tag true ['c'] []])
      = "Hi".toList ∧
    removeStyles (renderPieces
      [.tag false ['l', 'a', 'n', 'g'] " en".toList, .text "Hi".toList,
       .tag true ['l', 'a', 'n', 'g'] []])
      = "Hi".toList ∧
    '<' ∉ removeStyles (renderPieces
      [.voice " Bob".toList, .text "Hello".toList, .tag true ['v'] []]) :=
  ⟨removeStyles_tags.1 ['b'] (by decide) "Hello".toList (by decide),
   rfl,
   removeStyles_tags.2.2 _ (by
      intro p hp
      simp only [List.mem_cons, List.mem_singleton, List.not_mem_nil, or_false] at hp
      rcases hp with rfl | rfl | rfl <;>
        simp [Piece.WellFormed, tagNames, AnnotationOk]) (by
      intro p hp
      simp only [List.mem_cons, List.mem_singleton, List.not_mem_nil, or_false] at hp
      rcases hp with rfl | rfl | rfl <;> rfl),
   removeStyles_tags.2.2 _ (by
      intro p hp
      simp only [List.mem_cons, List.mem_singleton, List.not_mem_nil, or_false] at hp
      rcases hp with rfl | rfl | rfl <;>
        simp [Piece.WellFormed, tagNames, AnnotationOk]) (by
      intro p hp
      simp only [List.mem_cons, List.mem_singleton, List.not_mem_nil, or_false] at hp
      rcases hp with rfl | rfl | rfl <;> rfl),
   removeStyles_tags.2.1 _ (by
      intro p hp
      simp only [List.mem_cons, List.mem_singleton, List.not_mem_nil, or_false] at hp
      rcases hp with rfl | rfl | rfl <;>
        simp [Piece.WellFormed, tagNames, AnnotationOk])⟩

/-! ## The loop of `parse` -/

theorem parseStep_text_eq (timing : Str → F64 → Run Caption) (i : Nat) (raw : Str)
    (st : ParseState) (c : Caption) (hf : st.foundTiming = true) (hc : st.caption = some c)
    (hl : IsTextLine raw) :
    parseStep timing i raw st = .ok ⟨st.captions, true, some ⟨c.Start, c.End,
      if c.Nodes = [] then c.Nodes ++ [textNode raw]
      else c.Nodes ++ [NewLineBreak, textNode raw]⟩⟩ := by
  obtain ⟨h1, h2⟩ := hl
  by_cases hn : c.Nodes = []
  · simp [parseStep, h1, h2, hf, hc, hn, Caption.IsEmpty, textNode]
  · simp [parseStep, h1, h2, hf, hc, hn, Caption.IsEmpty, textNode]

theorem parseLoop_text_more (timing : Str → F64 → Run Caption) (ls : List Str) (i : Nat)
    (st : ParseState) (c : Caption) (hf : st.foundTiming = true) (hc : st.caption = some c)
    (hn : c.Nodes ≠ []) (hl : ∀ l ∈ ls, IsTextLine l) :
    parseLoop timing i ls st = .ok ⟨st.captions, true, some ⟨c.Start, c.End,
      c.Nodes ++ ls.flatMap (fun l => [NewLineBreak, textNode l])⟩⟩ := by
  induction ls generalizing i st c with
  | nil =>
    cases st
    simp only at hf hc
    subst hf hc
    simp [parseLoop]
  | cons l ls ih =>
    rw [parseLoop, parseStep_text_eq timing i l st c hf hc (hl l (List.mem_cons_self _ _))]
    simp only [hn, if_false]
    rw [ih (i + 1) _ _ rfl rfl (by simp) (fun q hq => hl q (List.mem_cons_of_mem _ hq))]
    simp

theorem intersperse_cons_flatMap {α : Type} (sep a : α) (l : List α) :
    List.intersperse sep (a :: l) = a :: l.flatMap (fun x => [sep, x]) := by
  induction l generalizing a with
  | nil => rfl
  | cons b l ih => rw [List.intersperse_cons_cons, ih b]; simp

theorem length_pairs {α : Type} (sep : α) (l : List α) :
    (l.flatMap (fun x => [sep, x])).length = 2 * l.length := by
  induction l with
  | nil => rfl
  | cons b l ih =>
    simp only [List.flatMap_cons, List.length_cons, List.length_append, ih, List.length_nil]
    omega

/-- C9: in a state where a timing line has been seen and the pending caption `c` exists, a
line whose trimmed form is not empty and has no `-->` appends to the nodes of `c` the text
node of the line, after a line break when `c` already has nodes, and leaves the finished
captions as they are; hence `k >= 1` such lines after a fresh pending caption give it the
`2k-1` nodes that are the text nodes of the lines with a line break between each two. -/
theorem parseStep_text (timing : Str → F64 → Run Caption) (i : Nat) (st : ParseState)
    (c : Caption) (hf : st.foundTiming = true) (hc : st.caption = some c) :
    (∀ raw, IsTextLine raw →
      parseStep timing i raw st = .ok ⟨st.captions, true, some ⟨c.Start, c.End,
        if c.Nodes = [] then c.Nodes ++ [textNode raw]
        else c.Nodes ++ [NewLineBreak, textNode raw]⟩⟩) ∧
    (∀ ls : List Str, ls ≠ [] → c.Nodes = [] → (∀ l ∈ ls, IsTextLine l) →
      parseLoop timing i ls st = .ok ⟨st.captions, true, some ⟨c.Start, c.End,
        List.intersperse NewLineBreak (ls.map textNode)⟩⟩ ∧
      (List.intersperse NewLineBreak (ls.map textNode)).length = 2 * ls.length - 1) := by
  refine ⟨fun raw hl => parseStep_text_eq timing i raw st c hf hc hl, ?_⟩
  intro ls hne hn hl
  cases ls with
  | nil => exact absurd rfl hne
  | cons l ls =>
    constructor
    · rw [parseLoop, parseStep_text_eq timing i l st c hf hc (hl l (List.mem_cons_self _ _))]
      simp only [hn, if_true, List.nil_append]
      rw [parseLoop_text_more timing ls (i + 1) _ _ rfl rfl (by simp)
        (fun q hq => hl q (List.mem_cons_of_mem _ hq))]
      simp only [List.map_cons, intersperse_cons_flatMap, List.flatMap_map,
        List.singleton_append]
    · simp only [List.map_cons, intersperse_cons_flatMap, List.length_cons, length_pairs,
        List.length_map]
      omega

/-- C9 at a pending caption without nodes and the two text lines `a` and `<b>b</b>`. -/
theorem parseStep_text_witness :
    parseLoop (parseTimingLine lineEnv (NewReader false)) 0 [['a'], "<b>b</b>".toList]
      ⟨[], true, some ⟨.num 0, .num 0, []⟩⟩ =
      .ok ⟨[], true, some ⟨.num 0, .num 0, [.text ['a'], .lineBreak, .text ['b']]⟩⟩ :=
  ((parseStep_text (parseTimingLine lineEnv (NewReader false)) 0
      ⟨[], true, some ⟨.num 0, .num 0, []⟩⟩ ⟨.num 0, .num 0, []⟩ rfl rfl).2
    [['a'], "<b>b</b>".toList] (by simp) rfl (by
      intro l hl
      simp only [List.mem_cons, List.mem_singleton, List.not_mem_nil, or_false] at hl
      rcases hl with rfl | rfl <;> exact ⟨by decide, by decide⟩)).1

theorem linked_init : ParseState.init.Linked := rfl

theorem parseStep_linked (timing : Str → F64 → Run Caption) (i : Nat) (raw : Str)
    (st st1 : ParseState) (h : st.Linked) (hs : parseStep timing i raw st = .ok st1) :
    st1.Linked := by
  obtain ⟨caps, found, pending⟩ := st
  simp only [ParseState.Linked] at h
  subst h
  unfold parseStep at hs
  simp only [] at hs
  split at hs
  · cases ht : timing (trimSpace raw) (lastStart caps) with
    | ok c => rw [ht] at hs; cases hs; rfl
    | error e => rw [ht] at hs; cases hs
    | fault f => rw [ht] at hs; cases hs
  · cases pending with
    | none => simp at hs; subst hs; rfl
    | some c =>
      simp only [Option.isSome_some, if_true] at hs
      split at hs
      · split at hs <;> (cases hs; rfl)
      · cases hs; rfl

theorem parseLoop_linked (timing : Str → F64 → Run Caption) (ls : List Str) (i : Nat)
    (st st1 : ParseState) (h : st.Linked) (hs : parseLoop timing i ls st = .ok st1) :
    st1.Linked := by
  induction ls generalizing i st with
  | nil => simp only [parseLoop, Run.ok.injEq] at hs; subst hs; exact h
  | cons l ls ih =>
    rw [parseLoop] at hs
    cases hp : parseStep timing i l st with
    | ok st2 =>
      rw [hp] at hs
      exact ih (i + 1) st2 (parseStep_linked timing i l st st2 h hp) hs
    | error e => rw [hp] at hs; cases hs
    | fault f => rw [hp] at hs; cases hs

theorem parseLoop_append (timing : Str → F64 → Run Caption) (a b : List Str) (i : Nat)
    (st : ParseState) :
    parseLoop timing i (a ++ b) st =
      (parseLoop timing i a st).bind (fun st1 => parseLoop timing (i + a.length) b st1) := by
  induction a generalizing i st with
  | nil => simp [parseLoop, Run.bind]
  | cons l a ih =>
    rw [List.cons_append, parseLoop, parseLoop]
    cases hp : parseStep timing i l st with
    | ok st2 =>
      simp only []
      rw [ih (i + 1) st2]
      have e : i + 1 + a.length = i + (l :: a).length := by simp; omega
      rw [e]
    | error e => rfl
    | fault f => rfl

theorem parseStep_blank (timing : Str → F64 → Run Caption) (i : Nat) (st : ParseState)
    (h : st.Linked) :
    ∃ st1, parseStep timing i [] st = .ok st1 ∧ finish st1 = finish st := by
  obtain ⟨caps, found, pending⟩ := st
  simp only [ParseState.Linked] at h
  subst h
  cases pending with
  | none => exact ⟨_, by simp [parseStep, trimSpace, stringsContains, startsWith, webvttTiming], rfl⟩
  | some c =>
    by_cases hc : c.IsEmpty = true
    · exact ⟨⟨caps, false, none⟩,
        by simp [parseStep, trimSpace, stringsContains, startsWith, webvttTiming, hc],
        by simp [finish, hc]⟩
    · exact ⟨⟨caps ++ [c], false, none⟩,
        by simp [parseStep, trimSpace, stringsContains, startsWith, webvttTiming, hc],
        by simp [finish, hc]⟩

theorem parseWith_trailing_blank (timing : Str → F64 → Run Caption) (lines : List Str) :
    parseWith timing (lines ++ [[]]) = parseWith timing lines := by
  unfold parseWith
  rw [parseLoop_append]
  cases hp : parseLoop timing 0 lines ParseState.init with
  | ok st =>
    have hl := parseLoop_linked timing lines 0 _ st linked_init hp
    obtain ⟨st1, h1, h2⟩ := parseStep_blank timing (0 + lines.length) st hl
    simp only [Run.bind, parseLoop, h1, h2]
  | error e => rfl
  | fault f => rfl

/-- C10: for every list of lines, `parse` returns the same result, error, failure or
caption list, on the lines and on the lines followed by one blank line; the pending cue at
the end of the input is finished once, as a blank line would finish it. -/
theorem parse_trailing_blank (env : Env) (r : Reader) (lines : List Str) :
    parse env r (lines ++ [[]]) = parse env r lines ∧
    ∀ timing : Str → F64 → Run Caption,
      parseWith timing (lines ++ [[]]) = parseWith timing lines :=
  ⟨parseWith_trailing_blank _ lines, fun timing => parseWith_trailing_blank timing lines⟩

theorem parseStep_not_nil (timing : Str → F64 → Run Caption)
    (ht : ∀ l t, timing l t ≠ .fault .nilDereference) (i : Nat) (raw : Str)
    (st : ParseState) (h : st.Linked) :
    parseStep timing i raw st ≠ .fault .nilDereference := by
  obtain ⟨caps, found, pending⟩ := st
  simp only [ParseState.Linked] at h
  subst h
  unfold parseStep
  simp only []
  split
  · cases hc : timing (trimSpace raw) (lastStart caps) with
    | ok c => simp
    | error e => simp
    | fault f =>
      simp only [ne_eq, Run.fault.injEq]
      rintro rfl
      exact ht _ _ hc
  · cases pending with
    | none => simp
    | some c =>
      simp only [Option.isSome_some, if_true]
      split
      · split <;> simp
      · simp

theorem parseLoop_not_nil (timing : Str → F64 → Run Caption)
    (ht : ∀ l t, timing l t ≠ .fault .nilDereference) (ls : List Str) (i : Nat)
    (st : ParseState) (h : st.Linked) :
    parseLoop timing i ls st ≠ .fault .nilDereference := by
  induction ls generalizing i st with
  | nil => simp [parseLoop]
  | cons l ls ih =>
    rw [parseLoop]
    cases hp : parseStep timing i l st with
    | ok st2 => exact ih (i + 1) st2 (parseStep_linked timing i l st st2 h hp)
    | error e => simp
    | fault f =>
      simp only [ne_eq, Run.fault.injEq]
      rintro rfl
      exact parseStep_not_nil timing ht i l st h hp

theorem parseTimingLine_not_nil (env : Env) (r : Reader) (l : Str) (t : F64) :
    parseTimingLine env r l t ≠ .fault .nilDereference := by
  rw [parseTimingLine_eq]
  split <;> simp

/-- C16: in the loop of `parse`, after any lines read without error or failure, a true
`foundTiming` comes with a pending caption, so the text-line branch never writes through a
nil caption and `parse` never fails with a nil dereference; and a line without `-->` read
while `foundTiming` is false, as it is before the first timing line and after each blank
line, leaves the pending caption and the captions as they are. -/
theorem parse_pending_exists (timing : Str → F64 → Run Caption) (env : Env) (r : Reader)
    (lines : List Str) :
    (∀ pre post st, lines = pre ++ post →
      parseLoop timing 0 pre ParseState.init = .ok st →
      st.foundTiming = true → st.caption ≠ none) ∧
    parse env r lines ≠ .fault .nilDereference ∧
    (∀ i raw st, st.foundTiming = false →
      stringsContains (trimSpace raw) webvttTiming = false →
      parseStep timing i raw st = .ok st) ∧
    (∀ pre post st, lines = pre ++ post →
      (∀ l ∈ pre, stringsContains l webvttTiming = false) →
      parseLoop timing 0 pre ParseState.init = .ok st → st.foundTiming = false) ∧
    (∀ i raw st st1, trimSpace raw = [] → parseStep timing i raw st = .ok st1 →
      st1.foundTiming = false) := by
  refine ⟨?_, ?_, ?_, ?_, ?_⟩
  · intro pre post st _ hp hf hc
    have hl := parseLoop_linked timing pre 0 _ st linked_init hp
    rw [ParseState.Linked, hf, hc] at hl
    exact absurd hl (by simp)
  · unfold parse parseWith
    have h := parseLoop_not_nil _ (parseTimingLine_not_nil env r) lines 0 _ linked_init
    cases hp : parseLoop (parseTimingLine env r) 0 lines ParseState.init with
    | ok st => simp
    | error e => simp
    | fault f => rw [hp] at h; simpa using h
  · intro i raw st hf hl
    simp [parseStep, hl, hf]
  · intro pre post st _ hl hp
    rw [parseLoop_no_timing timing 0 pre _ rfl hl] at hp
    cases hp
    rfl
  · intro i raw st st1 hb hs
    have hl : stringsContains ([] : Str) webvttTiming = false := rfl
    obtain ⟨caps, found, pending⟩ := st
    simp only [parseStep, hb, hl, if_true, Bool.false_eq_true, if_false] at hs
    cases found with
    | false => simp at hs; subst hs; rfl
    | true =>
      simp only [if_true] at hs
      cases pending with
      | none => cases hs; rfl
      | some c => simp only [] at hs; split at hs <;> (cases hs; rfl)

theorem traced_init (timing : Str → F64 → Run Caption) :
    ParseState.init.Traced timing [] :=
  ⟨by simp [ParseState.init], [], by simp [ParseState.init], by simp [ParseState.init]⟩

theorem traced_sublist (timing : Str → F64 → Run Caption) (pre : List Str)
    (pending : Option Caption) (ls : List Str)
    (h : match pending with
      | none => ls.Sublist pre
      | some c => ∃ raw, FromTimingLine timing c raw ∧ (ls ++ [raw]).Sublist pre) :
    ls.Sublist pre := by
  cases pending with
  | none => exact h
  | some c =>
    obtain ⟨raw, _, h0⟩ := h
    exact (List.sublist_append_left ls [raw]).trans h0

theorem parseStep_traced (timing : Str → F64 → Run Caption) (pre : List Str) (i : Nat)
    (raw : Str) (st st1 : ParseState) (ht : st.Traced timing pre)
    (hs : parseStep timing i raw st = .ok st1) : st1.Traced timing (pre ++ [raw]) := by
  obtain ⟨caps, found, pending⟩ := st
  obtain ⟨hn, ls, hf2, hsub⟩ := ht
  simp only at hn hf2 hsub
  have hls := traced_sublist timing pre pending ls hsub
  unfold parseStep at hs
  simp only [] at hs
  split at hs
  · rename_i hcont
    cases hc : timing (trimSpace raw) (lastStart caps) with
    | ok c =>
      rw [hc] at hs
      cases hs
      exact ⟨hn, ls, hf2, raw, ⟨hcont, _, c, hc, rfl, rfl⟩, hls.append (List.Sublist.refl _)⟩
    | error e => rw [hc] at hs; cases hs
    | fault f => rw [hc] at hs; cases hs
  · split at hs
    · cases found with
      | false =>
        simp only [Bool.false_eq_true, if_false, Run.ok.injEq] at hs
        subst hs
        refine ⟨hn, ls, hf2, ?_⟩
        cases pending with
        | none => exact List.sublist_append_of_sublist_left hsub
        | some c =>
          obtain ⟨raw0, h1, h2⟩ := hsub
          exact ⟨raw0, h1, List.sublist_append_of_sublist_left h2⟩
      | true =>
        simp only [if_true] at hs
        cases pending with
        | none =>
          cases hs
          exact ⟨hn, ls, hf2, List.sublist_append_of_sublist_left hsub⟩
        | some c =>
          obtain ⟨raw0, h1, h2⟩ := hsub
          simp only [] at hs
          split at hs
          · rename_i hne
            cases hs
            refine ⟨?_, ls ++ [raw0], ?_, List.sublist_append_of_sublist_left h2⟩
            · intro d hd
              simp only [List.mem_append, List.mem_singleton] at hd
              rcases hd with hd | rfl
              · exact hn d hd
              · intro he
                simp [Caption.IsEmpty, he] at hne
            · exact List.rel_append hf2 (List.Forall₂.cons h1 List.Forall₂.nil)
          · cases hs
            exact ⟨hn, ls, hf2, List.sublist_append_of_sublist_left hls⟩
    · cases found with
      | false =>
        simp only [Bool.false_eq_true, if_false, Run.ok.injEq] at hs
        subst hs
        refine ⟨hn, ls, hf2, ?_⟩
        cases pending with
        | none => exact List.sublist_append_of_sublist_left hsub
        | some c =>
          obtain ⟨raw0, h1, h2⟩ := hsub
          exact ⟨raw0, h1, List.sublist_append_of_sublist_left h2⟩
      | true =>
        simp only [if_true] at hs
        cases pending with
        | none => cases hs
        | some c =>
          obtain ⟨raw0, h1, h2⟩ := hsub
          simp only [Run.ok.injEq] at hs
          subst hs
          refine ⟨hn, ls, hf2, raw0, ?_, List.sublist_append_of_sublist_left h2⟩
          obtain ⟨k1, last, c0, k2, k3, k4⟩ := h1
          refine ⟨k1, last, c0, k2, ?_, ?_⟩
          · split <;> exact k3
          · split <;> exact k4

theorem parseLoop_traced (timing : Str → F64 → Run Caption) (ls : List Str)
    (pre : List Str) (i : Nat) (st st1 : ParseState) (ht : st.Traced timing pre)
    (hs : parseLoop timing i ls st = .ok st1) : st1.Traced timing (pre ++ ls) := by
  induction ls generalizing pre i st with
  | nil =>
    simp only [parseLoop, Run.ok.injEq] at hs
    subst hs
    simpa using ht
  | cons l ls ih =>
    rw [parseLoop] at hs
    cases hp : parseStep timing i l st with
    | ok st2 =>
      rw [hp] at hs
      have := ih (pre ++ [l]) (i + 1) st2 (parseStep_traced timing pre i l st st2 ht hp) hs
      simpa using this
    | error e => rw [hp] at hs; cases hs
    | fault f => rw [hp] at hs; cases hs

theorem finish_traced (timing : Str → F64 → Run Caption) (pre : List Str) (st : ParseState)
    (ht : st.Traced timing pre) :
    (∀ c ∈ finish st, c.Nodes ≠ []) ∧
    ∃ ls, ls.Sublist pre ∧ List.Forall₂ (FromTimingLine timing) (finish st) ls := by
  obtain ⟨caps, found, pending⟩ := st
  obtain ⟨hn, ls, hf2, hsub⟩ := ht
  simp only at hn hf2 hsub
  have hls := traced_sublist timing pre pending ls hsub
  cases pending with
  | none => exact ⟨hn, ls, hsub, hf2⟩
  | some c =>
    obtain ⟨raw0, h1, h2⟩ := hsub
    by_cases hc : c.IsEmpty = true
    · simp only [finish, hc, Bool.not_true, Bool.false_eq_true, if_false]
      exact ⟨hn, ls, hls, hf2⟩
    · simp only [finish, hc, Bool.not_false, if_true]
      simp only [Bool.not_eq_true] at hc
      refine ⟨?_, ls ++ [raw0], h2, List.rel_append hf2 (List.Forall₂.cons h1 List.Forall₂.nil)⟩
      intro d hd
      simp only [List.mem_append, List.mem_singleton] at hd
      rcases hd with hd | rfl
      · exact hn d hd
      · intro he
        simp [Caption.IsEmpty, he] at hc

theorem parseWith_output (timing : Str → F64 → Run Caption) (lines : List Str)
    (caps : List Caption) (h : parseWith timing lines = .ok caps) :
    (∀ c ∈ caps, c.Nodes ≠ []) ∧
    (∃ ls, ls.Sublist lines ∧ List.Forall₂ (FromTimingLine timing) caps ls) ∧
    caps.length ≤ (lines.filter (fun l => stringsContains l webvttTiming)).length := by
  unfold parseWith at h
  cases hp : parseLoop timing 0 lines ParseState.init with
  | error e => rw [hp] at h; cases h
  | fault f => rw [hp] at h; cases h
  | ok st =>
    rw [hp] at h
    cases h
    have ht := parseLoop_traced timing lines [] 0 _ st (traced_init timing) hp
    simp only [List.nil_append] at ht
    obtain ⟨h1, ls, h2, h3⟩ := finish_traced timing lines st ht
    refine ⟨h1, ⟨ls, h2, h3⟩, ?_⟩
    have hall : ∀ l ∈ ls, stringsContains l webvttTiming = true := by
      intro l hl
      obtain ⟨i, hi, rfl⟩ := List.getElem_of_mem hl
      have hlen := h3.length_eq
      have := (List.forall₂_iff_get.mp h3).2 i (by omega) hi
      exact contains_of_trim _ _ this.1
    have hfil : ls.filter (fun l => stringsContains l webvttTiming) = ls :=
      List.filter_eq_self.mpr hall
    have := (h2.filter (fun l => stringsContains l webvttTiming)).length_le
    rw [hfil] at this
    rw [h3.length_eq]
    exact this

/-- A run of `parse` without error has no timing line and so no caption: every line with
`-->` ends `parseTimingLine` with an error or a failure. -/
theorem parse_ok_nil (env : Env) (r : Reader) (lines : List Str) (caps : List Caption)
    (h : parse env r lines = .ok caps) : caps = [] := by
  obtain ⟨_, ⟨ls, _, h3⟩, _⟩ := parseWith_output _ lines caps h
  cases h3 with
  | nil => rfl
  | cons hc _ =>
    obtain ⟨_, last, c0, hk, _⟩ := hc
    exact absurd hk (parseTimingLine_ne_ok env r _ last c0)

/-- C19: when the loop of `parse` returns a caption list without error, whatever the parser
of timing lines (`Reader.parse` runs it with `parseTimingLine`), every caption of the list
has at least one node, the captions carry in order the times of some of the lines with
`-->`, taken in the order of the input, and there are at most as many captions as input
lines containing `-->`. -/
theorem parse_output (timing : Str → F64 → Run Caption) (lines : List Str)
    (caps : List Caption) (h : parseWith timing lines = .ok caps) :
    (∀ c ∈ caps, c.Nodes ≠ []) ∧
    (∃ ls, ls.Sublist lines ∧ List.Forall₂ (FromTimingLine timing) caps ls) ∧
    caps.length ≤ (lines.filter (fun l => stringsContains l webvttTiming)).length :=
  parseWith_output timing lines caps h

/-- C19 at a document with four lines with `-->` and two cues with text: the cue of
`c --> d` has no text line and the cue of `e --> f` is replaced by the one of `g --> h`. -/
theorem parse_output_witness :
    parseWith sampleTiming sampleCueLines =
      .ok [⟨.num 7, .num 7, [.text ['x'], .lineBreak, .text ['y']]⟩,
           ⟨.num 7, .num 7, [.text ['z']]⟩] ∧
    (∀ c ∈ [(⟨.num 7, .num 7, [.text ['x'], .lineBreak, .text ['y']]⟩ : Caption),
        ⟨.num 7, .num 7, [.text ['z']]⟩], c.Nodes ≠ []) ∧
    2 ≤ (sampleCueLines.filter (fun l => stringsContains l webvttTiming)).length :=
  ⟨by decide,
   (parse_output sampleTiming sampleCueLines
      [⟨.num 7, .num 7, [.text ['x'], .lineBreak, .text ['y']]⟩,
       ⟨.num 7, .num 7, [.text ['z']]⟩] (by decide)).1,
   (parse_output sampleTiming sampleCueLines
      [⟨.num 7, .num 7, [.text ['x'], .lineBreak, .text ['y']]⟩,
       ⟨.num 7, .num 7, [.text ['z']]⟩] (by decide)).2.2⟩

/-! ## Timing validation and slice accesses -/

/-- C17 as stated fails: for a caption whose `Start` is not a number, both comparisons of
`validateTimings` are false and it returns nil, although `Start <= End` is false too. -/
theorem validateTimings_nan :
    ¬ ∀ (c : Caption) (lastStartTime : F64),
      validateTimings c lastStartTime = none ↔
        (F64.le c.Start c.End = true ∧ F64.ge c.Start lastStartTime = true) := by
  intro h
  have h1 := (h ⟨.nan, .num 1, []⟩ (.num 0)).mp (by decide)
  revert h1
  decide

/-- C17, amended: for every caption `c` and every `lastStartTime` such that `c.Start`,
`c.End` and `lastStartTime` are numbers, `validateTimings` returns nil exactly when
`c.Start <= c.End` and `c.Start >= lastStartTime`; it is a function of its two arguments
that returns only the error. -/
theorem validateTimings_iff (c : Caption) (lastStartTime : F64)
    (hs : c.Start.isNaN = false) (he : c.End.isNaN = false)
    (hl : lastStartTime.isNaN = false) :
    validateTimings c lastStartTime = none ↔
      (F64.le c.Start c.End = true ∧ F64.ge c.Start lastStartTime = true) := by
  obtain ⟨s, e, ns⟩ := c
  simp only at hs he ⊢
  cases s <;> cases e <;> cases lastStartTime <;>
    simp_all [validateTimings, F64.le, F64.ge, F64.gt, F64.lt, F64.isNaN]
  · split_ifs <;> simp
  · rename_i a b d
    split_ifs with h1 h2
    · simp only [reduceCtorEq, false_iff, not_and, not_le]
      intro h3
      exact absurd h1 (not_lt.mpr h3)
    · simp only [reduceCtorEq, false_iff, not_and, not_le]
      intro _
      exact h2
    · simp only [true_iff]
      exact ⟨not_lt.mp h1, not_lt.mp h2⟩

/-- C17 at a cue of length zero that starts when the previous cue starts. -/
theorem validateTimings_iff_witness :
    validateTimings ⟨.num 5, .num 5, []⟩ (.num 5) = none ↔
      (F64.le (F64.num 5) (F64.num 5) = true ∧ F64.ge (F64.num 5) (F64.num 5) = true) :=
  validateTimings_iff ⟨.num 5, .num 5, []⟩ (.num 5) rfl rfl rfl

/-- C18, the code as written: on the line `a --> b` the match list of `timingPattern` is
not empty, it holds the one string `a --> b`, and the access `matches[1]` is out of its
bounds, so `parseTimingLine`, `parse` and `Read` stop with an index-out-of-range failure;
`parseTimestamp` alone never fails on an access. -/
theorem read_index_out_of_range (env : Env) (r : Reader) (lastStartTime : F64) :
    findAllStringAnchored timingPattern "a --> b".toList = ["a --> b".toList] ∧
    index (findAllStringAnchored timingPattern "a --> b".toList) 1
      = (.fault (.indexOutOfRange 1 1) : Run Str) ∧
    parseTimingLine env r "a --> b".toList lastStartTime = .fault (.indexOutOfRange 1 1) ∧
    parse env r ["a --> b".toList] = .fault (.indexOutOfRange 1 1) ∧
    Read lineEnv r "a --> b".toList = .fault (.indexOutOfRange 1 1) ∧
    ∀ input, parseTimestamp env input = .ok (.num 0) := by
  refine ⟨by decide, by decide, rfl, rfl, rfl, fun input => parseTimestamp_eq_zero env input⟩

/-! ## The function `microseconds` -/

theorem microseconds_ok (env : Env) (h m s f : Str) (hh mm ss ff : F64)
    (h1 : env.parseFloat h = some hh) (h2 : env.parseFloat m = some mm)
    (h3 : env.parseFloat s = some ss) (h4 : env.parseFloat f = some ff) :
    microseconds env h m s f = .ok (env.add
      (env.mul (env.add (env.add (env.mul hh (.num 3600)) (env.mul mm (.num 60))) ss)
        (.num 1000000))
      (env.mul ff (.num 1000))) := by
  simp [microseconds, h1, h2, h3, h4]

theorem microseconds_error_iff (env : Env) (h m s f : Str) :
    (∃ e, microseconds env h m s f = .error e) ↔
      (env.parseFloat h = none ∨ env.parseFloat m = none ∨ env.parseFloat s = none ∨
        env.parseFloat f = none) := by
  unfold microseconds
  cases env.parseFloat h <;> cases env.parseFloat m <;> cases env.parseFloat s <;>
    cases env.parseFloat f <;> simp

/-! ## The timestamp codec -/

theorem digit_char (d : Nat) (h : d < 10) :
    isDigit (Char.ofNat (48 + d)) = true ∧ (Char.ofNat (48 + d)).toNat - 48 = d := by
  interval_cases d <;> decide

theorem takeDigits_pad (n v : Nat) (rest : Str) :
    takeDigits n (padDigits n v ++ rest) = some (v % 10 ^ n, rest) := by
  induction n with
  | zero => simp [takeDigits, padDigits, Nat.mod_one]
  | succ n ih =>
    have hd := digit_char (v / 10 ^ n % 10) (Nat.mod_lt _ (by decide))
    have ih1 : takeDigits n (List.append (padDigits n v) rest) = some (v % 10 ^ n, rest) := ih
    simp only [padDigits, List.cons_append, takeDigits, hd.1, if_true, hd.2, ih1]
    rw [Nat.mod_pow_succ]
    congr 2
    ring

theorem parseClock_formatClock (sep : Char) (t : Nat) (hm : t % 1000 = 0)
    (hb : t < 360000000000) : parseClock sep (formatClock sep t) = some t := by
  unfold parseClock formatClock
  simp only [List.append_assoc, List.cons_append, takeDigits_pad, Option.bind_some,
    Option.some_bind, expectChar, if_true]
  rw [← List.append_nil (padDigits 3 _), takeDigits_pad]
  simp only [Option.bind_some, Option.some_bind, if_true, Option.some.injEq]
  omega

theorem isDigit_char (c : Char) (h : isDigit c = true) :
    c.toNat - 48 < 10 ∧ Char.ofNat (48 + (c.toNat - 48)) = c := by
  simp only [isDigit, Bool.and_eq_true, decide_eq_true_eq] at h
  obtain ⟨h1, h2⟩ := h
  have h3 : 48 ≤ c.toNat := h1
  have h4 : c.toNat ≤ 57 := h2
  refine ⟨by omega, ?_⟩
  have : 48 + (c.toNat - 48) = c.toNat := by omega
  rw [this]
  exact Char.ofNat_toNat c

theorem padDigits_add (n k w : Nat) : padDigits n (k * 10 ^ n + w) = padDigits n w := by
  induction n generalizing k with
  | zero => rfl
  | succ n ih =>
    have e1 : (k * 10 ^ (n + 1) + w) / 10 ^ n % 10 = w / 10 ^ n % 10 := by
      have : k * 10 ^ (n + 1) + w = w + (k * 10) * 10 ^ n := by ring
      rw [this, Nat.add_mul_div_right _ _ (by positivity), Nat.add_mul_mod_self_right]
    have e2 : k * 10 ^ (n + 1) + w = (k * 10) * 10 ^ n + w := by ring
    simp only [padDigits, e1]
    rw [e2, ih]

theorem takeDigits_some (n : Nat) (s rest : Str) (v : Nat)
    (h : takeDigits n s = some (v, rest)) : v < 10 ^ n ∧ s = padDigits n v ++ rest := by
  induction n generalizing s v with
  | zero =>
    simp only [takeDigits, Option.some.injEq, Prod.mk.injEq] at h
    obtain ⟨rfl, rfl⟩ := h
    simp [padDigits]
  | succ n ih =>
    cases s with
    | nil => simp [takeDigits] at h
    | cons c s =>
      simp only [takeDigits] at h
      split at h
      · rename_i hc
        obtain ⟨hd1, hd2⟩ := isDigit_char c hc
        cases ht : takeDigits n s with
        | none => rw [ht] at h; cases h
        | some p =>
          obtain ⟨w, r⟩ := p
          rw [ht] at h
          simp only [Option.some.injEq, Prod.mk.injEq] at h
          obtain ⟨rfl, rfl⟩ := h
          obtain ⟨hw, hs⟩ := ih s w ht
          have e1 : ((c.toNat - 48) * 10 ^ n + w) / 10 ^ n % 10 = c.toNat - 48 := by
            rw [Nat.add_comm, Nat.add_mul_div_right _ _ (by positivity),
              Nat.div_eq_of_lt hw, Nat.zero_add, Nat.mod_eq_of_lt hd1]
          constructor
          · have h9 : c.toNat - 48 ≤ 9 := by omega
            calc (c.toNat - 48) * 10 ^ n + w
                < (c.toNat - 48) * 10 ^ n + 10 ^ n := by omega
              _ = (c.toNat - 48 + 1) * 10 ^ n := by ring
              _ ≤ 10 * 10 ^ n := Nat.mul_le_mul_right _ (by omega)
              _ = 10 ^ (n + 1) := by ring
          · simp only [padDigits, e1, hd2, padDigits_add, List.cons_append, hs]
      · cases h

theorem expectChar_some (c : Char) (s rest : Str) (h : expectChar c s = some rest) :
    s = c :: rest := by
  cases s with
  | nil => simp [expectChar] at h
  | cons d s =>
    simp only [expectChar] at h
    split at h
    · rename_i hd
      simp only [Option.some.injEq] at h
      rw [hd, h]
    · cases h

theorem parseClock_some (sep : Char) (s : Str) (u : Nat) (h : parseClock sep s = some u) :
    ∃ hh mm ss ff, hh < 100 ∧ mm < 100 ∧ ss < 100 ∧ ff < 1000 ∧
      s = clockText sep hh mm ss ff ∧
      u = (hh * 3600 + mm * 60 + ss) * 1000000 + ff * 1000 := by
  unfold parseClock at h
  simp only [Option.bind_eq_some] at h
  obtain ⟨⟨hh, r1⟩, h1, s1, h2, ⟨mm, r2⟩, h3, s2, h4, ⟨ss, r3⟩, h5, s3, h6, ⟨ff, r4⟩, h7, h8⟩
    := h
  simp only at h2 h4 h6 h8
  split at h8
  · rename_i hr
    simp only [Option.some.injEq] at h8
    obtain ⟨b1, e1⟩ := takeDigits_some 2 s r1 hh h1
    obtain ⟨b2, e2⟩ := takeDigits_some 2 s1 r2 mm h3
    obtain ⟨b3, e3⟩ := takeDigits_some 2 s2 r3 ss h5
    obtain ⟨b4, e4⟩ := takeDigits_some 3 s3 r4 ff h7
    have e5 := expectChar_some _ _ _ h2
    have e6 := expectChar_some _ _ _ h4
    have e7 := expectChar_some _ _ _ h6
    refine ⟨hh, mm, ss, ff, b1, b2, b3, b4, ?_, h8.symm⟩
    rw [e1, e5, e2, e6, e3, e7, e4, hr]
    simp [clockText]
  · cases h8

theorem formatClock_fields (sep : Char) (hh mm ss ff : Nat) (h2 : mm < 60)
    (h3 : ss < 60) (h4 : ff < 1000) :
    formatClock sep ((hh * 3600 + mm * 60 + ss) * 1000000 + ff * 1000) =
      clockText sep hh mm ss ff := by
  have e1 : ((hh * 3600 + mm * 60 + ss) * 1000000 + ff * 1000) / 3600000000 = hh := by omega
  have e2 : ((hh * 3600 + mm * 60 + ss) * 1000000 + ff * 1000) / 60000000 % 60 = mm := by
    omega
  have e3 : ((hh * 3600 + mm * 60 + ss) * 1000000 + ff * 1000) / 1000000 % 60 = ss := by
    omega
  have e4 : ((hh * 3600 + mm * 60 + ss) * 1000000 + ff * 1000) / 1000 % 1000 = ff := by
    omega
  rw [formatClock, e1, e2, e3, e4, clockText]

theorem parseClock_clockText (sep : Char) (hh mm ss ff : Nat) (h1 : hh < 100)
    (h2 : mm < 100) (h3 : ss < 100) (h4 : ff < 1000) :
    parseClock sep (clockText sep hh mm ss ff) =
      some ((hh * 3600 + mm * 60 + ss) * 1000000 + ff * 1000) := by
  unfold parseClock clockText
  simp only [List.append_assoc, List.cons_append, takeDigits_pad, Option.bind_some,
    Option.some_bind, expectChar, if_true]
  rw [← List.append_nil (padDigits 3 _), takeDigits_pad]
  simp only [Option.bind_some, Option.some_bind, if_true, Option.some.injEq]
  rw [Nat.mod_eq_of_lt (by omega : hh < 10 ^ 2), Nat.mod_eq_of_lt (by omega : mm < 10 ^ 2),
    Nat.mod_eq_of_lt (by omega : ss < 10 ^ 2), Nat.mod_eq_of_lt (by omega : ff < 10 ^ 3)]

/-- C12 as stated fails on the codec of the spec: the DFXP value `00:99:00.000` matches the
pattern, parses to 5940000000 microseconds and is formatted back as `01:39:00.000`. -/
theorem formatDFXP_minutes :
    ¬ ∀ s u, ParseDFXP s = some u → FormatDFXP u = s := by
  intro h
  have h1 := h "00:99:00.000".toList 5940000000 (by decide)
  revert h1
  decide

/-- C12, amended: for every time `t` in microseconds that is a multiple of 1000 and below
100 hours, `ParseSRT (FormatSRT t) = t` and `ParseDFXP (FormatDFXP t) = t`; `00:00:17,000`
parses to 17000000 as an SRT field and `00:00:18.752` to 18752000 as a DFXP field; every
text that `ParseDFXP` accepts is `HH:MM:SS.mmm` for digit fields, and when its minutes and
seconds are below 60 it is formatted back to itself after parsing, as is each `begin` and
`end` of the DFXP sample. -/
theorem timestamp_round_trip (t : Nat) (hm : t % 1000 = 0) (hb : t < 360000000000) :
    ParseSRT (FormatSRT t) = some t ∧ ParseDFXP (FormatDFXP t) = some t ∧
    ParseSRT "00:00:17,000".toList = some 17000000 ∧
    ParseDFXP "00:00:18.752".toList = some 18752000 ∧
    (∀ s u, ParseDFXP s = some u →
      ∃ hh mm ss ff, hh < 100 ∧ mm < 100 ∧ ss < 100 ∧ ff < 1000 ∧
        s = clockText '.' hh mm ss ff ∧
        u = (hh * 3600 + mm * 60 + ss) * 1000000 + ff * 1000) ∧
    (∀ hh mm ss ff, hh < 100 → mm < 60 → ss < 60 → ff < 1000 →
      (ParseDFXP (clockText '.' hh mm ss ff)).map FormatDFXP =
        some (clockText '.' hh mm ss ff)) ∧
    ∀ s ∈ sampleDFXPTimes, (ParseDFXP s).map FormatDFXP = some s := by
  refine ⟨parseClock_formatClock ',' t hm hb, parseClock_formatClock '.' t hm hb,
    by decide, by decide, fun s u h => parseClock_some '.' s u h, ?_, by decide⟩
  intro hh mm ss ff h1 h2 h3 h4
  rw [ParseDFXP, parseClock_clockText '.' hh mm ss ff h1 (by omega) (by omega) h4,
    Option.map_some', FormatDFXP, formatClock_fields '.' hh mm ss ff h2 h3 h4]

/-- C12 at 20887000 microseconds and at the text `00:00:20.887`. -/
theorem timestamp_round_trip_witness :
    ParseSRT (FormatSRT 20887000) = some 20887000 ∧
    ParseDFXP (FormatDFXP 20887000) = some 20887000 ∧
    (ParseDFXP (clockText '.' 0 0 20 887)).map FormatDFXP = some "00:00:20.887".toList :=
  ⟨(timestamp_round_trip 20887000 (by decide) (by decide)).1,
   (timestamp_round_trip 20887000 (by decide) (by decide)).2.1,
   (timestamp_round_trip 20887000 (by decide) (by decide)).2.2.2.2.2.1 0 0 20 887
     (by decide) (by decide) (by decide) (by decide)⟩

/-! ## The text of a caption -/

theorem getText_foldl (ns : List Node) (acc : Str) :
    ns.foldl (fun acc n =>
      match n with
      | .text content => acc ++ content
      | .lineBreak => acc ++ ['\n']
      | .style _ => acc) acc = acc ++ ns.flatMap Node.flat := by
  induction ns generalizing acc with
  | nil => simp
  | cons n ns ih =>
    rw [List.foldl_cons, ih, List.flatMap_cons]
    cases n <;> simp [Node.flat]

/-- C15: for every caption, `GetText` is the concatenation, in the order of the nodes, of
the content of each Text node and of a newline for each LineBreak node, a Style node
giving nothing; the nodes Text `MAN:`, LineBreak, Text `When we think` give the two lines
`MAN:` and `When we think`, and a Style node before the Text
`we have this vision of Einstein` gives that text. -/
theorem getText_flat (c : Caption) (sd : StyleDescriptor) :
    c.GetText = c.Nodes.flatMap Node.flat ∧
    Caption.GetText ⟨.num 14848000, .num 17000000,
      [.text "MAN:".toList, .lineBreak, .text "When we think".toList]⟩
      = "MAN:\nWhen we think".toList ∧
    Caption.GetText ⟨.num 17000000, .num 18752000,
      [.style sd, .text "we have this vision of Einstein".toList]⟩
      = "we have this vision of Einstein".toList := by
  refine ⟨?_, by decide, ?_⟩
  · rw [Caption.GetText, getText_foldl, List.nil_append]
  · rw [Caption.GetText, getText_foldl]
    rfl

/-! ## The SRT reader -/

theorem srtRun_text_more (ts rest : List Str) (c : Caption) (out : List Caption)
    (hn : c.Nodes ≠ []) (ht : ∀ t ∈ ts, trimSpace t ≠ []) :
    srtRun ⟨.body c, out⟩ (ts ++ rest) =
      srtRun ⟨.body ⟨c.Start, c.End,
        c.Nodes ++ ts.flatMap (fun t => [NewLineBreak, NewCaptionText t])⟩, out⟩ rest := by
  induction ts generalizing c with
  | nil => simp
  | cons t ts ih =>
    have h1 := ht t (List.mem_cons_self _ _)
    have hne : c.Nodes.isEmpty = false := by
      cases hc : c.Nodes with
      | nil => exact absurd hc hn
      | cons a b => rfl
    rw [List.cons_append, srtRun]
    simp only [srtStep, h1, if_false, srtAddText, hne, Bool.false_eq_true]
    rw [ih _ (by simp) (fun q hq => ht q (List.mem_cons_of_mem _ hq))]
    simp

theorem srtRun_block (b : SrtBlock) (hb : b.WellFormed) (out : List Caption)
    (rest : List Str) :
    srtRun ⟨.counter, out⟩ (b.lines ++ rest) =
      srtRun ⟨.counter, out ++ [b.caption]⟩ rest := by
  obtain ⟨h1, h2, h3, h4⟩ := hb
  obtain ⟨counter, timing, texts⟩ := b
  simp only at h1 h2 h3 h4
  cases hp : parseSrtTiming timing with
  | none => rw [hp] at h2; exact absurd h2 (by simp)
  | some p =>
    obtain ⟨startTime, endTime⟩ := p
    cases texts with
    | nil => exact absurd rfl h3
    | cons t ts =>
      have ht := h4 t (List.mem_cons_self _ _)
      have hl : (SrtBlock.mk counter timing (t :: ts)).lines ++ rest =
          counter :: timing :: t :: (ts ++ ([] :: rest)) := by
        simp [SrtBlock.lines]
      rw [hl]
      simp only [srtRun, srtStep, h1, if_true, srtTiming, hp, ht, if_false, srtAddText,
        List.isEmpty_nil]
      rw [srtRun_text_more ts _ ⟨.num startTime, .num endTime, [NewCaptionText t]⟩ out
        (by simp) (fun q hq => h4 q (List.mem_cons_of_mem _ hq))]
      simp only [List.singleton_append, srtRun, srtStep, trimSpace, List.dropWhile_nil,
        List.reverse_nil, if_true, SrtBlock.caption, hp, List.map_cons,
        intersperse_cons_flatMap, List.flatMap_map, List.cons_append, List.nil_append]

theorem srtRun_blocks (blocks : List SrtBlock) (h : ∀ b ∈ blocks, b.WellFormed)
    (out : List Caption) :
    srtRun ⟨.counter, out⟩ (blocks.flatMap SrtBlock.lines) =
      .ok ⟨.counter, out ++ blocks.map SrtBlock.caption⟩ := by
  induction blocks generalizing out with
  | nil => simp [srtRun]
  | cons b bs ih =>
    rw [List.flatMap_cons, srtRun_block b (h b (List.mem_cons_self _ _)),
      ih (fun q hq => h q (List.mem_cons_of_mem _ hq))]
    simp

theorem getCaptions_setCaptions (lang : Str) (seq : List Caption) :
    CaptionSet.GetCaptions (NewCaptionSet.SetCaptions lang seq) lang = seq := by
  simp [CaptionSet.GetCaptions, CaptionSet.SetCaptions, NewCaptionSet]

/-- C13: for every SRT document made of `N` well-formed blocks (counter line, timing line,
one or more text lines, blank line), also when a text line has only decimal digits, the
block parser finds the `N` captions of the blocks, and for `N >= 1` the reader returns
them under the language asked for (with no block it reports `EmptyDocument`); the sample
of seven blocks whose last cue body is the line `3` gives seven captions, the last one with
the text `3`. -/
theorem srt_blocks (blocks : List SrtBlock) (lang : Str)
    (h : ∀ b ∈ blocks, b.WellFormed) :
    (srtRun ⟨.counter, []⟩ (blocks.flatMap SrtBlock.lines)).toOption.map srtFinish =
      some (blocks.map SrtBlock.caption) ∧
    (blocks.map SrtBlock.caption).length = blocks.length ∧
    (blocks ≠ [] →
      SRTReader.ReadLines (blocks.flatMap SrtBlock.lines) lang =
        .ok (NewCaptionSet.SetCaptions lang (blocks.map SrtBlock.caption)) ∧
      (CaptionSet.GetCaptions (NewCaptionSet.SetCaptions lang (blocks.map SrtBlock.caption))
        lang).length = blocks.length) ∧
    (blocks = [] →
      SRTReader.ReadLines (blocks.flatMap SrtBlock.lines) lang = .error .EmptyDocument) ∧
    (SRTReader.Read sampleSRTnumeric DefaultLang).toOption.map
      (fun set => (CaptionSet.GetCaptions set DefaultLang).map Caption.GetText) =
      some ["TO  FIND  HIM.            IF".toList, "YOU  HAVE  ANY  INFORMATION".toList,
        "THAT  CAN  HELP,  CALL  THE".toList, "STOPPERS  LINE.          THAT".toList,
        "NUMBER  IS  662-429-84-77.".toList, "STD  OUT".toList, ['3']] := by
  refine ⟨?_, by simp, ?_, ?_, by decide⟩
  · rw [srtRun_blocks blocks h]
    simp [Except.toOption, srtFinish]
  · intro hne
    have hb : (blocks.map SrtBlock.caption).isEmpty = false := by
      cases blocks with
      | nil => exact absurd rfl hne
      | cons b bs => rfl
    constructor
    · simp only [SRTReader.ReadLines, srtRun_blocks blocks h, srtFinish, List.nil_append, hb,
        Bool.false_eq_true, if_false]
    · rw [getCaptions_setCaptions, List.length_map]
  · rintro rfl
    rfl

/-- C13 at one block whose only text line is `3`. -/
theorem srt_blocks_witness :
    SRTReader.ReadLines
      (List.flatMap
        [SrtBlock.mk "41".toList "00:00:36,460 --> 00:02:11,500".toList [['3']]]
        SrtBlock.lines) DefaultLang =
      .ok (NewCaptionSet.SetCaptions DefaultLang
        (List.map SrtBlock.caption
          [SrtBlock.mk "41".toList "00:00:36,460 --> 00:02:11,500".toList [['3']]])) :=
  (srt_blocks [SrtBlock.mk "41".toList "00:00:36,460 --> 00:02:11,500".toList [['3']]]
    DefaultLang
    (by
      intro b hb
      simp only [List.mem_singleton] at hb
      subst hb
      exact ⟨by decide, by decide, by simp, by decide⟩)).2.2.1 (by simp) |>.1

theorem srtStep_blank_twice (st st1 : SrtState) (h : srtStep st [] = .ok st1) :
    srtStep st1 [] = .ok st1 := by
  obtain ⟨pos, out⟩ := st
  cases pos with
  | counter =>
    simp only [srtStep, isCounter, List.isEmpty_nil, Bool.not_true, Bool.false_and,
      Bool.false_eq_true, if_false, trimSpace, List.dropWhile_nil, List.reverse_nil,
      if_true, Except.ok.injEq] at h
    subst h
    rfl
  | timing =>
    have : srtStep ⟨.timing, out⟩ [] = .error .MalformedTimestamp := rfl
    rw [this] at h
    cases h
  | body c =>
    simp only [srtStep, trimSpace, List.dropWhile_nil, List.reverse_nil, if_true,
      Except.ok.injEq] at h
    subst h
    rfl

theorem srtRun_extra_blank (pre post : List Str) (st : SrtState) :
    srtRun st (pre ++ [] :: [] :: post) = srtRun st (pre ++ [] :: post) := by
  induction pre generalizing st with
  | nil =>
    simp only [List.nil_append, srtRun]
    cases h : srtStep st [] with
    | error e => rfl
    | ok st1 => simp only [srtStep_blank_twice st st1 h]
  | cons l pre ih =>
    simp only [List.cons_append, srtRun]
    cases srtStep st l with
    | error e => rfl
    | ok st1 => exact ih st1

/-- C14: for every SRT document, a blank line added next to a blank line leaves the result
of the reader, and so the number of captions, as it is; the sample of two blocks with a
doubled blank line after the first timing line gives two captions and no error. -/
theorem srt_extra_blank (pre post : List Str) (lang : Str) :
    SRTReader.ReadLines (pre ++ [] :: [] :: post) lang =
      SRTReader.ReadLines (pre ++ [] :: post) lang ∧
    (SRTReader.Read sampleSRTblankLines DefaultLang).toOption.map
      (fun set => (CaptionSet.GetCaptions set DefaultLang).length) = some 2 := by
  refine ⟨?_, by decide⟩
  simp only [SRTReader.ReadLines, srtRun_extra_blank]

theorem round53_small (n : Nat) (h : n < 2 ^ 53) : round53 n = n := by
  have hd : dropBits 1100 n = 0 := by
    rw [show (1100 : Nat) = 1099 + 1 from rfl, dropBits, if_pos h]
  simp [round53, hd, Nat.mod_one]

theorem small_lt_overflowBound (n : Nat) (h : n < 2 ^ 53) : n < overflowBound := by
  have : (2 : Nat) ^ 53 ≤ overflowBound := by
    unfold overflowBound
    calc (2 : Nat) ^ 53 ≤ 2 ^ 256 := Nat.pow_le_pow_right (by decide) (by decide)
      _ ≤ (2 ^ 256) ^ 4 := Nat.le_self_pow (by decide) _
  omega

theorem f64OfNat_small (n : Nat) (h : n < 2 ^ 53) : f64OfNat n = .num n := by
  rw [f64OfNat, round53_small n h, if_pos (small_lt_overflowBound n h)]

theorem ieeeEnv_IEEE : ieeeEnv.IEEE := by
  refine ⟨?_, ?_, ?_⟩
  · intro s hs
    show (if s ≠ [] ∧ s.all isDigit = true then _ else none) = _
    exact if_pos hs
  · intro a b _ _
    simp [ieeeEnv]
  · intro a b _ _
    simp [ieeeEnv]

theorem parseFloat_small (env : Env) (he : env.IEEE) (s : Str) (hs : IsDigits s)
    (h : digitsValue s < 2 ^ 53) : env.parseFloat s = some (.num (digitsValue s)) := by
  rw [he.1 s hs, round53_small _ h, if_pos (small_lt_overflowBound _ h)]

theorem mul_small (env : Env) (he : env.IEEE) (a b : Nat) (ha : a < 2 ^ 53)
    (hb : b < 2 ^ 53) (h : a * b < 2 ^ 53) :
    env.mul (.num a) (.num b) = .num ((a * b : Nat) : ℚ) := by
  rw [he.2.1 a b (round53_small a ha) (round53_small b hb), f64OfNat_small _ h]

theorem add_small (env : Env) (he : env.IEEE) (a b : Nat) (ha : a < 2 ^ 53)
    (hb : b < 2 ^ 53) (h : a + b < 2 ^ 53) :
    env.add (.num a) (.num b) = .num ((a + b : Nat) : ℚ) := by
  rw [he.2.2 a b (round53_small a ha) (round53_small b hb), f64OfNat_small _ h]

theorem microseconds_exact (env : Env) (he : env.IEEE) (h m s f : Str) (hh : IsDigits h)
    (hm : IsDigits m) (hs : IsDigits s) (hf : IsDigits f)
    (hb : exactMicroseconds h m s f < 2 ^ 53) :
    microseconds env h m s f = .ok (.num (exactMicroseconds h m s f : Nat)) := by
  unfold exactMicroseconds at hb ⊢
  generalize hH : digitsValue h = H at hb ⊢
  generalize hM : digitsValue m = M at hb ⊢
  generalize hS : digitsValue s = S at hb ⊢
  generalize hF : digitsValue f = F at hb ⊢
  have p1 := parseFloat_small env he h hh (by omega)
  have p2 := parseFloat_small env he m hm (by omega)
  have p3 := parseFloat_small env he s hs (by omega)
  have p4 := parseFloat_small env he f hf (by omega)
  rw [hH] at p1
  rw [hM] at p2
  rw [hS] at p3
  rw [hF] at p4
  have c1 : (3600 : ℚ) = ((3600 : Nat) : ℚ) := by norm_num
  have c2 : (60 : ℚ) = ((60 : Nat) : ℚ) := by norm_num
  have c3 : (1000000 : ℚ) = ((1000000 : Nat) : ℚ) := by norm_num
  have c4 : (1000 : ℚ) = ((1000 : Nat) : ℚ) := by norm_num
  have k : (3600 : Nat) < 2 ^ 53 ∧ (60 : Nat) < 2 ^ 53 ∧ (1000000 : Nat) < 2 ^ 53 ∧
      (1000 : Nat) < 2 ^ 53 := by decide
  rw [microseconds_ok env h m s f _ _ _ _ p1 p2 p3 p4, c1, c2, c3, c4,
    mul_small env he H 3600 (by omega) k.1 (by omega),
    mul_small env he M 60 (by omega) k.2.1 (by omega),
    add_small env he (H * 3600) (M * 60) (by omega) (by omega) (by omega),
    add_small env he (H * 3600 + M * 60) S (by omega) (by omega) (by omega),
    mul_small env he (H * 3600 + M * 60 + S) 1000000 (by omega) k.2.2.1 (by omega),
    mul_small env he F 1000 (by omega) k.2.2.2 (by omega),
    add_small env he ((H * 3600 + M * 60 + S) * 1000000) (F * 1000) (by omega) (by omega)
      (by omega)]

/-- C11 as stated fails: with the rounding of `float64`, the hours field
`9007199254740993`, which is `2^53 + 1`, parses to `2^53`, and `microseconds` returns
32425917317067571200000000 where the exact value is 32425917317067574800000000. -/
theorem microseconds_inexact :
    ¬ ∀ env : Env, env.IEEE → ∀ h m s f, IsDigits h → IsDigits m → IsDigits s → IsDigits f →
      microseconds env h m s f = .ok (.num (exactMicroseconds h m s f : Nat)) := by
  intro H
  have h1 := H ieeeEnv ieeeEnv_IEEE "9007199254740993".toList ['0'] ['0'] ['0']
    ⟨by decide, by decide⟩ ⟨by decide, by decide⟩ ⟨by decide, by decide⟩
    ⟨by decide, by decide⟩
  revert h1
  decide

/-- C11, amended: for all strings `h`, `m`, `s`, `f` that each parse as a number,
`microseconds` returns `(h*3600 + m*60 + s)*1000000 + f*1000` in `float64` arithmetic with
a nil error; it returns an error exactly when one of the four fields fails to parse; and
for fields of decimal digits whose exact number of microseconds is below `2^53`, the
result is that exact integer. -/
theorem microseconds_spec (env : Env) (h m s f : Str) :
    (∀ hh mm ss ff, env.parseFloat h = some hh → env.parseFloat m = some mm →
      env.parseFloat s = some ss → env.parseFloat f = some ff →
      microseconds env h m s f = .ok (env.add
        (env.mul (env.add (env.add (env.mul hh (.num 3600)) (env.mul mm (.num 60))) ss)
          (.num 1000000))
        (env.mul ff (.num 1000)))) ∧
    ((∃ e, microseconds env h m s f = .error e) ↔
      (env.parseFloat h = none ∨ env.parseFloat m = none ∨ env.parseFloat s = none ∨
        env.parseFloat f = none)) ∧
    (env.IEEE → IsDigits h → IsDigits m → IsDigits s → IsDigits f →
      exactMicroseconds h m s f < 2 ^ 53 →
      microseconds env h m s f = .ok (.num (exactMicroseconds h m s f : Nat))) :=
  ⟨fun hh mm ss ff h1 h2 h3 h4 => microseconds_ok env h m s f hh mm ss ff h1 h2 h3 h4,
   microseconds_error_iff env h m s f,
   fun he h1 h2 h3 h4 hb => microseconds_exact env he h m s f h1 h2 h3 h4 hb⟩

/-- C11 at the fields `0`, `0`, `18`, `752`, whose exact value is 18752000. -/
theorem microseconds_spec_witness :
    exactMicroseconds ['0'] ['0'] "18".toList "752".toList = 18752000 ∧
    microseconds ieeeEnv ['0'] ['0'] "18".toList "752".toList =
      .ok (.num (exactMicroseconds ['0'] ['0'] "18".toList "752".toList : Nat)) :=
  ⟨by decide,
   (microseconds_spec ieeeEnv ['0'] ['0'] "18".toList "752".toList).2.2 ieeeEnv_IEEE
     ⟨by decide, by decide⟩ ⟨by decide, by decide⟩ ⟨by decide, by decide⟩
     ⟨by decide, by decide⟩ (by decide)⟩

end Caps
